import Mathlib

/-!
Verification development for the AlphaBlokus repository.

This file gives a shallow embedding, in Lean 4, of the Blokus game engine
(`game_engine/pieces.py`, `game_engine/board.py`, `game_engine/rules.py`,
`game_engine/scoring.py`) and of the Monte-Carlo tree search built on top
of it (`rl_agents/mcts.py`, `rl_agents/policy_wrapper.py`), together with
theorems settling a list of claims about that code.

General conventions of the embedding:

* Python sets of `(row, col)` pairs (piece shapes and orientations) are
  embedded as canonical duplicate-free sorted lists of `ℤ × ℤ`; applying a
  Python set comprehension becomes `List.map` followed by
  re-canonicalisation, so list equality of canonical forms coincides with
  set equality.
* Python sets of piece ids are embedded as `Finset ℕ`.
* Python `float` arithmetic is embedded as exact real arithmetic over `ℝ`
  (`math.sqrt` becomes `Real.sqrt`, `np.exp` becomes `Real.exp`,
  `float('inf')` becomes `⊤` in `WithTop ℝ`).
* Python list indexing `xs[i]` on the read side is embedded with `List.getD`
  (the out-of-range default is never exercised under the well-formedness
  hypotheses used by the theorems); on the write side, where the Python
  semantics of negative indices and `IndexError` matters to a claim, it is
  embedded explicitly (`pyIndex`).
* Iteration over a Python set of small ints (piece ids 0..20) is embedded
  as iteration in ascending order, matching CPython's observed iteration
  order for such sets; iteration over a Python set of frozensets has an
  unspecified order and is embedded as insertion order.  No claim below
  depends on these orders.
-/

/-! ## Part one: the embedding (definitions) -/

/-! ## Geometry: `game_engine/pieces.py` -/

/-- A board coordinate pair `(row, col)`, as in `pieces.py`. -/
abbrev Coord := ℤ × ℤ

/-- Strict lexicographic order on coordinates, used only to keep the list
representation of a Python set of pairs canonical. -/
def coordLt (a b : Coord) : Bool := a.1 < b.1 || (a.1 == b.1 && a.2 < b.2)

/-- Insert a coordinate into a sorted duplicate-free list, keeping it sorted
and duplicate-free (no-op when already present). -/
def insertCoord (x : Coord) : List Coord → List Coord
  | [] => [x]
  | y :: ys =>
    if x = y then y :: ys
    else if coordLt x y then x :: y :: ys
    else y :: insertCoord x ys

/-- Canonical (sorted, duplicate-free) form of a list of coordinates: the
embedding of a Python `set` of `(row, col)` pairs. -/
def canonShape (l : List Coord) : List Coord := l.foldr insertCoord []

/-- Minimum row of a shape (`min(r for r, _ in shape)`); `0` on the empty
list, where Python would raise. -/
def minFst : List Coord → ℤ
  | [] => 0
  | p :: ps => ps.foldl (fun m q => min m q.1) p.1

/-- Minimum column of a shape (`min(c for _, c in shape)`); `0` on the empty
list, where Python would raise. -/
def minSnd : List Coord → ℤ
  | [] => 0
  | p :: ps => ps.foldl (fun m q => min m q.2) p.2

/-- `pieces.normalize_shape`: shift a set of `(r, c)` coordinates so that the
topmost-leftmost coordinate is `(0, 0)`. -/
def normalize_shape (shape : List Coord) : List Coord :=
  canonShape (shape.map fun p => (p.1 - minFst shape, p.2 - minSnd shape))

/-- `pieces.rotate_90`: rotate 90 degrees clockwise, `(r, c) ↦ (c, -r)`, then
re-normalize. -/
def rotate_90 (shape : List Coord) : List Coord :=
  normalize_shape (shape.map fun p => (p.2, -p.1))

/-- `pieces.flip_horizontal`: mirror along the vertical axis,
`(r, c) ↦ (r, -c)`, then re-normalize. -/
def flip_horizontal (shape : List Coord) : List Coord :=
  normalize_shape (shape.map fun p => (p.1, -p.2))

/-- Add an orientation to the accumulated collection unless already present
(the embedding of `orientations.add(frozenset(...))`). -/
def addOrient (acc : List (List Coord)) (o : List Coord) : List (List Coord) :=
  if o ∈ acc then acc else acc ++ [o]

/-- The `for _ in range(4)` loop of `pieces.get_all_orientations`: rotate the
current shape, record it and its horizontal flip. -/
def orientLoop : ℕ → List Coord → List (List Coord) → List (List Coord)
  | 0, _, acc => acc
  | n + 1, current, acc =>
    let c := rotate_90 current
    orientLoop n c (addOrient (addOrient acc c) (flip_horizontal c))

/-- `pieces.get_all_orientations`: all distinct orientations (4 rotations,
each optionally flipped) of a shape, each normalized. -/
def get_all_orientations (shape : List Coord) : List (List Coord) :=
  orientLoop 4 (normalize_shape shape) []

/-- `pieces.ALL_SHAPES`: the 21 canonical piece shapes, index = piece id.
Each set literal is transcribed from `pieces.py` in canonical sorted order
(only the Y pentomino, id 19, is written in a different order there). -/
def ALL_SHAPES : List (List Coord) :=
  [ [(0, 0)],                                        -- 0: 1-square
    [(0, 0), (0, 1)],                                -- 1: domino
    [(0, 0), (0, 1), (0, 2)],                        -- 2: straight tromino
    [(0, 0), (1, 0), (1, 1)],                        -- 3: L tromino
    [(0, 0), (0, 1), (0, 2), (1, 1)],                -- 4: T tetromino
    [(0, 0), (1, 0), (2, 0), (2, 1)],                -- 5: L tetromino
    [(0, 1), (0, 2), (1, 0), (1, 1)],                -- 6: S tetromino
    [(0, 0), (0, 1), (1, 0), (1, 1)],                -- 7: square tetromino
    [(0, 0), (0, 1), (0, 2), (0, 3)],                -- 8: line of 4
    [(0, 1), (1, 0), (1, 1), (1, 2), (2, 0)],        -- 9: F
    [(0, 0), (0, 1), (0, 2), (0, 3), (0, 4)],        -- 10: I
    [(0, 0), (1, 0), (2, 0), (3, 0), (3, 1)],        -- 11: L
    [(0, 0), (0, 1), (1, 0), (1, 1), (2, 0)],        -- 12: P
    [(0, 0), (1, 0), (2, 0), (3, 0), (3, 1)],        -- 13: N (as written in the source)
    [(0, 0), (0, 1), (0, 2), (1, 1), (2, 1)],        -- 14: T
    [(0, 0), (0, 2), (1, 0), (1, 1), (1, 2)],        -- 15: U
    [(0, 0), (1, 0), (2, 0), (3, 0), (3, 1)],        -- 16: V (as written in the source)
    [(0, 2), (1, 1), (1, 2), (2, 0), (2, 1)],        -- 17: W
    [(0, 1), (1, 0), (1, 1), (1, 2), (2, 1)],        -- 18: X
    [(0, 0), (1, 0), (2, 0), (2, 1), (3, 0)],        -- 19: Y
    [(0, 0), (0, 1), (1, 1), (1, 2), (2, 2)] ]       -- 20: Z

/-! ## Game state: `game_engine/board.py` -/

/-- `board.NUM_PLAYERS`. -/
def NUM_PLAYERS : ℕ := 4

/-- `board.BOARD_SIZE`. -/
def BOARD_SIZE : ℕ := 20

/-- One board cell: `None` or the occupying color. -/
abbrev Cell := Option ℕ

/-- The nested-list board grid. -/
abbrev Grid := List (List Cell)

/-- `board.BoardState`.  The Python object is mutable; `rules.apply_move`
always works on a deep copy, so the functional embedding treats it as a
value (the heap-level mutation model for claim C8 is separate, below). -/
structure BoardState where
  board_grid : Grid
  pieces_remaining : List (Finset ℕ)
  current_player : ℕ
  moves_made : List ℕ
  consecutive_passes : ℕ

/-- `board.BoardState.__init__`: empty 20×20 grid, all 21 pieces for each of
the 4 colors, player 0 to move. -/
def initialBoardState : BoardState :=
  { board_grid := List.replicate BOARD_SIZE (List.replicate BOARD_SIZE (none : Cell)),
    pieces_remaining := List.replicate NUM_PLAYERS (Finset.range 21),
    current_player := 0,
    moves_made := List.replicate NUM_PLAYERS 0,
    consecutive_passes := 0 }

/-- Read `grid[r][c]`.  Callers in `rules.py` always guard
`0 ≤ r, c < BOARD_SIZE` before reading, so the `getD` defaults are never
exercised there. -/
def gridGet (g : Grid) (r c : ℤ) : Cell := (g.getD r.toNat []).getD c.toNat none

/-! ## Rules engine: `game_engine/rules.py` -/

/-- A `rules.Move` tuple `(piece_id, row_off, col_off, shape_coords)`; the
shape set is carried as a coordinate list (its only use is iteration). -/
structure Move where
  piece_id : ℕ
  row_off : ℤ
  col_off : ℤ
  shape_coords : List Coord

/-- `rules.CORNER_POSITIONS`. -/
def CORNER_POSITIONS : List Coord :=
  [(0, 0), (0, (BOARD_SIZE : ℤ) - 1), ((BOARD_SIZE : ℤ) - 1, 0),
   ((BOARD_SIZE : ℤ) - 1, (BOARD_SIZE : ℤ) - 1)]

/-- The in-bounds test `0 <= x < BOARD_SIZE` used throughout
`check_legal_move`. -/
def inB (x : ℤ) : Bool := decide (0 ≤ x) && decide (x < (BOARD_SIZE : ℤ))

/-- First loop of `rules.check_legal_move`: walk the shape cells, failing on
the first out-of-bounds or occupied square, otherwise collecting the
absolute board squares in order. -/
def collectPlaced (g : Grid) (row_off col_off : ℤ) : List Coord → Option (List Coord)
  | [] => some []
  | (r, c) :: rest =>
    let rr := r + row_off
    let cc := c + col_off
    if !(inB rr && inB cc) then none
    else if (gridGet g rr cc).isSome then none
    else (collectPlaced g row_off col_off rest).map (fun l => (rr, cc) :: l)

/-- `rules.check_legal_move`'s edge-adjacency directions. -/
def edge_neighbors : List Coord := [(0, 1), (0, -1), (1, 0), (-1, 0)]

/-- `rules.check_legal_move`'s corner-adjacency directions. -/
def corner_neighbors : List Coord := [(1, 1), (1, -1), (-1, 1), (-1, -1)]

/-- Does some in-bounds neighbor of `p` in one of the directions `dirs` hold
a stone of `color`?  (The inner neighbor loops of `check_legal_move`.) -/
def touches (g : Grid) (color : ℕ) (dirs : List Coord) (p : Coord) : Bool :=
  dirs.any fun d =>
    inB (p.1 + d.1) && inB (p.2 + d.2) && (gridGet g (p.1 + d.1) (p.2 + d.2) == some color)

/-- Adjacency loop of `check_legal_move`: `false` on the first edge contact
with the own color, else `true` iff some corner contact was seen. -/
def adjacencyLoop (g : Grid) (color : ℕ) : List Coord → Bool → Bool
  | [], corner_contact => corner_contact
  | p :: rest, corner_contact =>
    if touches g color edge_neighbors p then false
    else adjacencyLoop g color rest (corner_contact || touches g color corner_neighbors p)

/-- `rules.check_legal_move`. -/
def check_legal_move (state : BoardState) (move : Move) : Bool :=
  let color := state.current_player
  if move.piece_id ∈ state.pieces_remaining.getD color ∅ then
    match collectPlaced state.board_grid move.row_off move.col_off move.shape_coords with
    | none => false
    | some placed_squares =>
      if state.moves_made.getD color 0 = 0 then
        decide (CORNER_POSITIONS.getD color (0, 0) ∈ placed_squares)
      else
        adjacencyLoop state.board_grid color placed_squares false
  else false

/-- Maximum row of a shape (`max(r for r, c in orientation)`); `0` on the
empty list, where Python would raise. -/
def maxFst : List Coord → ℤ
  | [] => 0
  | p :: ps => ps.foldl (fun m q => max m q.1) p.1

/-- Maximum column of a shape. -/
def maxSnd : List Coord → ℤ
  | [] => 0
  | p :: ps => ps.foldl (fun m q => max m q.2) p.2

/-- Offset loops of `rules.get_legal_moves` for one orientation: all shifts
keeping the bounding box on the board, row-major, filtered by
`check_legal_move`. -/
def placementsFor (state : BoardState) (pid : ℕ) (orientation : List Coord) : List Move :=
  (List.range (BOARD_SIZE - (maxFst orientation).toNat)).flatMap fun ro =>
    (List.range (BOARD_SIZE - (maxSnd orientation).toNat)).filterMap fun co =>
      if check_legal_move state ⟨pid, (ro : ℤ), (co : ℤ), orientation⟩ then
        some ⟨pid, (ro : ℤ), (co : ℤ), orientation⟩
      else none

/-- `rules.get_legal_moves`: every legal placement for the current player
(piece ids in ascending order, then orientation, then offset). -/
def get_legal_moves (state : BoardState) : List Move :=
  let color := state.current_player
  ((state.pieces_remaining.getD color ∅).sort (· ≤ ·)).flatMap fun piece_id =>
    (get_all_orientations (ALL_SHAPES.getD piece_id [])).flatMap fun orientation =>
      placementsFor state piece_id orientation

/-- The Python exceptions `rules.apply_move` can raise. -/
inductive ApplyErr where
  | keyErr : ApplyErr
  | idxErr : ApplyErr
deriving DecidableEq

/-- Python list-index resolution: an index is valid for `-len ≤ i < len`,
negative values wrapping around. -/
def pyIndex (len : ℕ) (i : ℤ) : Option ℕ :=
  if 0 ≤ i ∧ i < (len : ℤ) then some i.toNat
  else if -(len : ℤ) ≤ i ∧ i < 0 then some (i + (len : ℤ)).toNat
  else none

/-- One board write `new_state.board_grid[rr][cc] = color`, with Python index
semantics (`none` = `IndexError`). -/
def gridWrite (g : Grid) (r c : ℤ) (color : ℕ) : Option Grid :=
  match pyIndex g.length r with
  | none => none
  | some ri =>
    let row := g.getD ri []
    match pyIndex row.length c with
    | none => none
    | some ci => some (g.set ri (row.set ci (some color)))

/-- The placement loop of `apply_move`. -/
def writeCells (g : Grid) (row_off col_off : ℤ) (color : ℕ) : List Coord → Option Grid
  | [] => some g
  | (r, c) :: rest =>
    match gridWrite g (r + row_off) (c + col_off) color with
    | none => none
    | some g2 => writeCells g2 row_off col_off color rest

/-- `rules.apply_move`: successor state, or the Python error the source
would raise (`set.remove` raises before any cell is written, matching the
source order).  The source mutates a deep copy, so this is a record
update. -/
def apply_move (state : BoardState) (move : Option Move) : Except ApplyErr BoardState :=
  let color := state.current_player
  match move with
  | none =>
    .ok { state with consecutive_passes := state.consecutive_passes + 1,
                     current_player := (color + 1) % 4 }
  | some mv =>
    if mv.piece_id ∈ state.pieces_remaining.getD color ∅ then
      match writeCells state.board_grid mv.row_off mv.col_off color mv.shape_coords with
      | none => .error .idxErr
      | some g2 =>
        .ok { board_grid := g2,
              pieces_remaining :=
                state.pieces_remaining.set color
                  ((state.pieces_remaining.getD color ∅).erase mv.piece_id),
              current_player := (color + 1) % 4,
              moves_made :=
                state.moves_made.set color (state.moves_made.getD color 0 + 1),
              consecutive_passes := 0 }
    else .error .keyErr

/-- `rules.is_terminal`. -/
def is_terminal (state : BoardState) : Bool :=
  if 4 ≤ state.consecutive_passes then true
  else (List.range 4).all fun color => (state.pieces_remaining.getD color ∅).card = 0

/-- `scoring.compute_final_scores`: basic scoring, each leftover square is
one minus point. -/
def compute_final_scores (state : BoardState) : List ℤ :=
  (List.range 4).map fun color =>
    -((state.pieces_remaining.getD color ∅).sum fun pid => ((ALL_SHAPES.getD pid []).length : ℤ))

/-- Did an `Except` computation succeed? -/
def isOkE : Except ApplyErr BoardState → Bool
  | .ok _ => true
  | .error _ => false

/-- A small test state: color 0 owns square (0,0), has made one move, and
is to move again; all pieces still notionally available. -/
def ownCornerState : BoardState :=
  { board_grid := (List.replicate 20 (List.replicate 20 (none : Cell))).set 0
      ((List.replicate 20 (none : Cell)).set 0 (some 0)),
    pieces_remaining := List.replicate 4 (Finset.range 21),
    current_player := 0,
    moves_made := [1, 0, 0, 0],
    consecutive_passes := 0 }

/-! ### Claim C8: `apply_move` mutates only the clone

For this frame claim the Python object graph is modeled explicitly: a heap
of the three kinds of mutable objects a `BoardState` owns (board row lists,
per-color piece sets, the `moves_made` list), with addresses as arena
indices and allocation by appending. -/

/-- Arenas of the mutable Python objects reachable from `BoardState`s. -/
structure PyHeap where
  rows : List (List Cell)
  sets : List (Finset ℕ)
  ilists : List (List ℕ)

/-- A `BoardState` Python object: references into the heap for its mutable
members, immediate values for its integer fields. -/
structure BoardStateObj where
  grid_refs : List ℕ
  set_refs : List ℕ
  mm_ref : ℕ
  current_player : ℕ
  consecutive_passes : ℕ

/-- Dereference a board-row address. -/
def readRow (h : PyHeap) (a : ℕ) : List Cell := h.rows.getD a []

/-- Dereference a piece-set address. -/
def readSet (h : PyHeap) (a : ℕ) : Finset ℕ := h.sets.getD a ∅

/-- Dereference a moves-list address. -/
def readIL (h : PyHeap) (a : ℕ) : List ℕ := h.ilists.getD a []

/-- Everything observable about a state object through the heap: grid
contents, piece sets, moves counts and the two integer fields. -/
def readState (h : PyHeap) (s : BoardStateObj) :
    List (List Cell) × List (Finset ℕ) × List ℕ × ℕ × ℕ :=
  (s.grid_refs.map (readRow h), s.set_refs.map (readSet h), readIL h s.mm_ref,
   s.current_player, s.consecutive_passes)

/-- `board.BoardState.clone`: allocate deep copies of the grid rows
(`copy.deepcopy`), the piece sets (`s.copy()`) and the moves list (`[:]`),
returning an object that references only the fresh copies. -/
def cloneObj (h : PyHeap) (s : BoardStateObj) : PyHeap × BoardStateObj :=
  (⟨h.rows ++ s.grid_refs.map (readRow h),
    h.sets ++ s.set_refs.map (readSet h),
    h.ilists ++ [readIL h s.mm_ref]⟩,
   ⟨(List.range s.grid_refs.length).map (h.rows.length + ·),
    (List.range s.set_refs.length).map (h.sets.length + ·),
    h.ilists.length, s.current_player, s.consecutive_passes⟩)

/-- Overwrite a row object in the heap. -/
def writeRowH (h : PyHeap) (a : ℕ) (row : List Cell) : PyHeap :=
  { h with rows := h.rows.set a row }

/-- Overwrite a set object in the heap. -/
def writeSetH (h : PyHeap) (a : ℕ) (s : Finset ℕ) : PyHeap :=
  { h with sets := h.sets.set a s }

/-- Overwrite a moves-list object in the heap. -/
def writeILH (h : PyHeap) (a : ℕ) (l : List ℕ) : PyHeap :=
  { h with ilists := h.ilists.set a l }

/-- `new_state.board_grid[rr][cc] = color` on the heap, with Python index
semantics; `none` = `IndexError`, raised before any write. -/
def gridWriteH (h : PyHeap) (o : BoardStateObj) (r c : ℤ) (color : ℕ) :
    Option PyHeap :=
  match pyIndex o.grid_refs.length r with
  | none => none
  | some ri =>
    let a := o.grid_refs.getD ri 0
    match pyIndex (readRow h a).length c with
    | none => none
    | some ci => some (writeRowH h a ((readRow h a).set ci (some color)))

/-- The placement loop of `apply_move` on the heap; on `IndexError` the
writes performed so far remain (as in Python). -/
def writeCellsH (h : PyHeap) (o : BoardStateObj) (ro co : ℤ) (color : ℕ) :
    List Coord → PyHeap × Bool
  | [] => (h, true)
  | (r, c) :: rest =>
    match gridWriteH h o (r + ro) (c + co) color with
    | none => (h, false)
    | some h2 => writeCellsH h2 o ro co color rest

/-- Heap-level `rules.apply_move`: clone the state, then mutate only the
clone.  Returns the final heap, the result object, and whether the call
completed without raising (`false` = `KeyError`/`IndexError` escaped). -/
def apply_move_imp (h : PyHeap) (s : BoardStateObj) (mv : Option Move) :
    PyHeap × BoardStateObj × Bool :=
  let hns := cloneObj h s
  let h1 := hns.1
  let ns := hns.2
  let color := ns.current_player
  match mv with
  | none =>
    (h1, { ns with consecutive_passes := ns.consecutive_passes + 1,
                   current_player := (color + 1) % 4 }, true)
  | some m =>
    let sa := ns.set_refs.getD color 0
    let pieces := readSet h1 sa
    if m.piece_id ∈ pieces then
      let h2 := writeSetH h1 sa (pieces.erase m.piece_id)
      let done := writeCellsH h2 ns m.row_off m.col_off color m.shape_coords
      if done.2 then
        let h3 := done.1
        let mm := readIL h3 ns.mm_ref
        let h4 := writeILH h3 ns.mm_ref (mm.set color (mm.getD color 0 + 1))
        (h4, { ns with consecutive_passes := 0,
                       current_player := (color + 1) % 4 }, true)
      else (done.1, ns, false)
    else (h1, ns, false)

/-- All references of a state object point below the current arena sizes,
and the current player indexes its set-reference list. -/
def ValidObj (h : PyHeap) (s : BoardStateObj) : Prop :=
  (∀ a ∈ s.grid_refs, a < h.rows.length) ∧
  (∀ a ∈ s.set_refs, a < h.sets.length) ∧
  s.mm_ref < h.ilists.length ∧
  s.current_player < s.set_refs.length

/-- `h'` agrees with `h` on all addresses below the given bases. -/
def AgreesBelow (h h' : PyHeap) (rb sb ib : ℕ) : Prop :=
  (∀ a < rb, readRow h' a = readRow h a) ∧
  (∀ a < sb, readSet h' a = readSet h a) ∧
  (∀ a < ib, readIL h' a = readIL h a)

/-- A tiny concrete heap and state object for the claim C8 witness. -/
def heap0 : PyHeap := ⟨[[none, some 2]], [∅, {3}], [[0, 1]]⟩

/-- The state object living in `heap0`. -/
def obj0 : BoardStateObj := ⟨[0], [0, 1], 0, 1, 2⟩

/-! ## MCTS: `rl_agents/policy_wrapper.py` and `rl_agents/mcts.py` -/

/-- The piece-level distribution returned by `decode_policy`: a probability
per piece id (0 for ids outside the returned dict, matching
`piece_policy.get(pid, 0.0)`) and the pass probability. -/
structure PiecePolicy where
  pieceProb : ℕ → ℝ
  passProb : ℝ

/-- First index attaining the maximum of `f`: the embedding of `np.argmax`
(used by `decode_policy` only in its temperature ≈ 0 branch). -/
noncomputable def pyArgmax (f : Fin 22 → ℝ) : Fin 22 := by
  classical
  refine (Finset.univ.filter fun i =>
    f i = Finset.univ.sup' ⟨0, Finset.mem_univ 0⟩ f).min' ?_
  obtain ⟨b, -, hb⟩ := Finset.exists_mem_eq_sup' ⟨0, Finset.mem_univ 0⟩ f
  exact ⟨b, Finset.mem_filter.2 ⟨Finset.mem_univ b, hb.symm⟩⟩

/-- `policy_wrapper.decode_policy`: mask the 22 logits to the legal piece
ids plus pass (index 21), softmax with temperature (argmax for temperature
at most `1e-8`), and return the legal-piece and pass probabilities.  If no
piece is legal, pass gets probability 1 directly. -/
noncomputable def decode_policy (logits : Fin 22 → ℝ) (legal : Finset ℕ)
    (temperature : ℝ) : PiecePolicy :=
  if legal = ∅ then ⟨fun _ => 0, 1⟩
  else
    let masked : Fin 22 → ℝ := fun i =>
      if i.val ∈ legal ∨ i.val = 21 then logits i else -1000000000
    if 1e-8 < temperature then
      let scaled : Fin 22 → ℝ := fun i => masked i / temperature
      let mx := Finset.univ.sup' ⟨0, Finset.mem_univ 0⟩ scaled
      let exps : Fin 22 → ℝ := fun i => Real.exp (scaled i - mx)
      let z := ∑ i, exps i
      ⟨fun pid => if h : pid < 21 ∧ pid ∈ legal then exps ⟨pid, by omega⟩ / z else 0,
       exps 21 / z⟩
    else
      let am := pyArgmax masked
      ⟨fun pid => if pid < 21 ∧ pid ∈ legal then (if am.val = pid then 1 else 0) else 0,
       if am.val = 21 then 1 else 0⟩

/-- The external evaluator: `encode_state` composed with the network gives a
22-vector of policy logits and a scalar value, both functions of the state. -/
structure Model where
  policy : BoardState → Fin 22 → ℝ
  value : BoardState → ℝ

/-- Action keys of `MCTSNode.children`: `(pid, idx)` tuples, or the
`('pass', 0)` tuple. -/
inductive ActionKey where
  | place : ℕ → ℕ → ActionKey
  | passKey : ℕ → ActionKey
deriving DecidableEq

mutual
/-- `mcts.MCTSNode`: state, visit count, total value, priors dict, expanded
flag, the `last_action_key` attribute that `expand_node` sets at creation
(`none` for a root node), and the insertion-ordered children dict. -/
inductive MCTSNode where
  | mk : BoardState → ℕ → ℝ → List (ActionKey × ℝ) → Bool → Option ActionKey →
      ChildMap → MCTSNode

/-- The insertion-ordered `children` dict of an `MCTSNode`. -/
inductive ChildMap where
  | nil : ChildMap
  | cons : ActionKey → MCTSNode → ChildMap → ChildMap
end

/-- The `state` field. -/
def MCTSNode.state : MCTSNode → BoardState
  | .mk st _ _ _ _ _ _ => st

/-- The `visit_count` field. -/
def MCTSNode.visit_count : MCTSNode → ℕ
  | .mk _ vc _ _ _ _ _ => vc

/-- The `total_value` field. -/
def MCTSNode.total_value : MCTSNode → ℝ
  | .mk _ _ tv _ _ _ _ => tv

/-- The `priors` dict. -/
def MCTSNode.priors : MCTSNode → List (ActionKey × ℝ)
  | .mk _ _ _ pr _ _ _ => pr

/-- The `expanded` flag. -/
def MCTSNode.expanded : MCTSNode → Bool
  | .mk _ _ _ _ e _ _ => e

/-- The `last_action_key` attribute. -/
def MCTSNode.lastKey : MCTSNode → Option ActionKey
  | .mk _ _ _ _ _ k _ => k

/-- The `children` dict. -/
def MCTSNode.children : MCTSNode → ChildMap
  | .mk _ _ _ _ _ _ ch => ch

/-- Is the children dict empty (`len(node.children) == 0`)? -/
def ChildMap.isNil : ChildMap → Bool
  | .nil => true
  | .cons _ _ _ => false

/-- Sum of the children's visit counts. -/
def ChildMap.sumVisits : ChildMap → ℕ
  | .nil => 0
  | .cons _ c rest => c.visit_count + rest.sumVisits

/-- The keys of the children dict, in order. -/
def ChildMap.keys : ChildMap → List ActionKey
  | .nil => []
  | .cons k _ rest => k :: rest.keys

/-- Append two children dicts (dict insertion preserves order). -/
def ChildMap.append : ChildMap → ChildMap → ChildMap
  | .nil, m => m
  | .cons k c rest, m => .cons k c (rest.append m)

/-- Children dict from an association list. -/
def ofListCM : List (ActionKey × MCTSNode) → ChildMap
  | [] => .nil
  | (k, c) :: rest => .cons k c (ofListCM rest)

/-- `MCTSNode.mean_value`. -/
noncomputable def MCTSNode.mean_value (n : MCTSNode) : ℝ :=
  if n.visit_count = 0 then 0 else n.total_value / n.visit_count

/-- The dict lookup `priors.get(key, 0)`. -/
def priorsGet (pr : List (ActionKey × ℝ)) : Option ActionKey → ℝ
  | none => 0
  | some key => ((pr.find? fun e => e.1 == key).map Prod.snd).getD 0

/-- `mcts.ucb_score`; `float('inf')` is `⊤ : WithTop ℝ`.  Note: the source
looks the prior up in the CHILD's own priors dict under the child's
`last_action_key`, and this embedding reproduces that faithfully. -/
noncomputable def ucb_score (parent child : MCTSNode) (c_puct : ℝ) : WithTop ℝ :=
  if child.visit_count = 0 then ⊤
  else ((child.mean_value + c_puct * priorsGet child.priors child.lastKey *
    Real.sqrt parent.visit_count / (1 + child.visit_count) : ℝ) : WithTop ℝ)

/-- The selection score as the spec words it: the prior stored at the
PARENT for the child's action.  Written only for comparison with the
source's `ucb_score`. -/
noncomputable def spec_ucb_score (parent child : MCTSNode) (c_puct : ℝ) : WithTop ℝ :=
  if child.visit_count = 0 then ⊤
  else ((child.mean_value + c_puct * priorsGet parent.priors child.lastKey *
    Real.sqrt parent.visit_count / (1 + child.visit_count) : ℝ) : WithTop ℝ)

/-- The `for action_key, child in node.children.items()` loop of the select
phase: keep the strictly best-scoring child seen so far, starting from
`best_score = -999999.0`. -/
noncomputable def selectLoop (parent : MCTSNode) (c_puct : ℝ) :
    ChildMap → WithTop ℝ → Option (ActionKey × MCTSNode) →
    Option (ActionKey × MCTSNode)
  | .nil, _, best => best
  | .cons k c rest, best_score, best =>
    if best_score < ucb_score parent c c_puct then
      selectLoop parent c_puct rest (ucb_score parent c c_puct) (some (k, c))
    else selectLoop parent c_puct rest best_score best

/-- A freshly created child node (`MCTSNode(child_state, parent=node)`
followed by setting `last_action_key`). -/
def freshChild (st : BoardState) (k : ActionKey) : MCTSNode :=
  .mk st 0 0 [] false (some k) .nil

/-- The `for idx, mv in enumerate(placements)` loop of `expand_node` for one
piece id: one child per placement, each with the split prior.  `none`
propagates a Python error from `apply_move` (unreachable for moves coming
from `get_legal_moves`). -/
def placementChildren (st : BoardState) (pid : ℕ) (split : ℝ) :
    List (ℕ × Move) → Option (List (ActionKey × MCTSNode) × List (ActionKey × ℝ))
  | [] => some ([], [])
  | (idx, mv) :: rest =>
    match apply_move st (some mv) with
    | .error _ => none
    | .ok child_state =>
      (placementChildren st pid split rest).map fun p =>
        ((ActionKey.place pid idx, freshChild child_state (ActionKey.place pid idx)) :: p.1,
         (ActionKey.place pid idx, split) :: p.2)

/-- The `for pid in legal_piece_ids` loop of `expand_node` (ascending piece
ids): pieces without any legal placement are skipped, the others get their
decoded probability split evenly over their placements. -/
noncomputable def pieceLoop (st : BoardState) (pp : PiecePolicy)
    (legal_moves : List Move) :
    List ℕ → Option (List (ActionKey × MCTSNode) × List (ActionKey × ℝ))
  | [] => some ([], [])
  | pid :: rest =>
    let placements := legal_moves.filter fun m => m.piece_id == pid
    if placements.isEmpty then pieceLoop st pp legal_moves rest
    else
      match placementChildren st pid (pp.pieceProb pid / placements.length)
          placements.enum with
      | none => none
      | some built =>
        (pieceLoop st pp legal_moves rest).map fun p =>
          (built.1 ++ p.1, built.2 ++ p.2)

/-- `mcts.expand_node`: no-op (but marking expanded) on terminal states;
otherwise build one child per legal placement, with per-placement priors,
plus a pass child when the decoded pass probability is positive.  `none`
means a Python exception would escape. -/
noncomputable def expand_node (model : Model) (node : MCTSNode) : Option MCTSNode :=
  match node with
  | .mk st vc tv pr _ex lak ch =>
    if is_terminal st then some (.mk st vc tv pr true lak ch)
    else
      let legal_moves := get_legal_moves st
      let legal_piece_ids := st.pieces_remaining.getD st.current_player ∅
      let pp := decode_policy (model.policy st) legal_piece_ids 1
      match pieceLoop st pp legal_moves (legal_piece_ids.sort (· ≤ ·)) with
      | none => none
      | some built =>
        match (if 0 < pp.passProb then
            match apply_move st none with
            | .error _ => none
            | .ok pass_state =>
              some (built.1 ++ [(ActionKey.passKey 0,
                      freshChild pass_state (ActionKey.passKey 0))],
                    built.2 ++ [(ActionKey.passKey 0, pp.passProb)])
          else some built) with
        | none => none
        | some b =>
          some (.mk st vc tv (pr ++ b.2) true lak (ch.append (ofListCM b.1)))

/-- `mcts.evaluate_node`: terminal states score `final_scores[cp] / 100.0`,
non-terminal states get the network value. -/
noncomputable def evaluate_node (model : Model) (node : MCTSNode) : ℝ :=
  if is_terminal node.state then
    ((compute_final_scores node.state).getD node.state.current_player 0 : ℝ) / 100
  else model.value node.state

/-- The per-node update of `backup_value`: one more visit, `value` added to
the total. -/
def bumpNode (n : MCTSNode) (v : ℝ) : MCTSNode :=
  match n with
  | .mk st vc tv pr e k ch => .mk st (vc + 1) (tv + v) pr e k ch

mutual
/-- One iteration of `mcts_search`'s loop: select a path down from the
node while it is expanded with children, expand the reached node if
unexpanded and non-terminal, evaluate, and back the value up (every node on
the selection path gets one more visit and the value added, which is what
`backup_value` does walking the parent chain).  `none` = a Python error
escaped (no child selected, or expansion failed). -/
noncomputable def simulate (model : Model) (c_puct : ℝ) :
    MCTSNode → Option (MCTSNode × ℝ)
  | .mk st vc tv pr ex lak ch =>
    if ex && !ch.isNil then
      match selectLoop (.mk st vc tv pr ex lak ch) c_puct ch
          (((-999999 : ℝ) : WithTop ℝ)) none with
      | none => none
      | some (k, _) =>
        match simInto model c_puct k ch with
        | none => none
        | some (ch2, v) => some (.mk st (vc + 1) (tv + v) pr ex lak ch2, v)
    else
      match (if !ex && !is_terminal st then
          expand_node model (.mk st vc tv pr ex lak ch)
        else some (.mk st vc tv pr ex lak ch)) with
      | none => none
      | some t2 => some (bumpNode t2 (evaluate_node model t2), evaluate_node model t2)

/-- Descend into the child stored under key `k` (keys are unique in dicts
built by `expand_node`), rebuilding the dict around the updated child. -/
noncomputable def simInto (model : Model) (c_puct : ℝ) (k : ActionKey) :
    ChildMap → Option (ChildMap × ℝ)
  | .nil => none
  | .cons k2 c rest =>
    if k = k2 then
      (simulate model c_puct c).map fun p => (.cons k2 p.1 rest, p.2)
    else
      (simInto model c_puct k rest).map fun p => (.cons k2 c p.1, p.2)
end

/-- `mcts.mcts_search`: run `n` simulations from the root, returning the
final tree (`none` if a Python error escaped). -/
noncomputable def mcts_search (model : Model) (c_puct : ℝ) :
    MCTSNode → ℕ → Option MCTSNode
  | t, 0 => some t
  | t, n + 1 =>
    match simulate model c_puct t with
    | none => none
    | some (t2, _) => mcts_search model c_puct t2 n

/-! ### Claim C1: the prior used by `ucb_score` -/

/-- A visited child node whose own priors dict is empty (as for every child
that has not been expanded), carrying the `last_action_key` under which the
parent stored prior 1/2 for it. -/
noncomputable def ucbChild : MCTSNode :=
  .mk initialBoardState 1 0 [] true (some (ActionKey.place 0 0)) .nil

/-- A parent with 4 visits whose expansion stored prior 1/2 for its only
child's action key. -/
noncomputable def ucbParent : MCTSNode :=
  .mk initialBoardState 4 0 [(ActionKey.place 0 0, 1 / 2)] true none
    (ChildMap.cons (ActionKey.place 0 0) ucbChild .nil)

/-! ### Claim C2: visit counts over a search run -/

/-- A non-terminal state whose player to move has no pieces left: expansion
creates exactly the pass child.  (Other colors still hold pieces, so the
state is not terminal.) -/
def noPieceState : BoardState :=
  { board_grid := List.replicate BOARD_SIZE (List.replicate BOARD_SIZE (none : Cell)),
    pieces_remaining := [∅, Finset.range 21, Finset.range 21, Finset.range 21],
    current_player := 0,
    moves_made := List.replicate NUM_PLAYERS 0,
    consecutive_passes := 0 }

/-- The deterministic stub evaluator of the claim: uniform (constant) policy
logits and value 0 everywhere. -/
noncomputable def uniformModel : Model := ⟨fun _ _ => 0, fun _ => 0⟩

/-- A fresh, never-visited, unexpanded root over a state. -/
noncomputable def freshRoot (st : BoardState) : MCTSNode :=
  .mk st 0 0 [] false none .nil

/-- The state after the pass move from `noPieceState`. -/
def c2PassState : BoardState :=
  { noPieceState with consecutive_passes := 1, current_player := 1 }

/-- The pass child `expand_node` creates from `noPieceState`. -/
noncomputable def c2Child : MCTSNode := freshChild c2PassState (ActionKey.passKey 0)

/-- The root right after expansion, before backup. -/
noncomputable def c2PreRoot : MCTSNode :=
  .mk noPieceState 0 0 [(ActionKey.passKey 0, 1)] true none
    (.cons (ActionKey.passKey 0) c2Child .nil)

/-- The root after the first (and only) simulation. -/
noncomputable def c2Root : MCTSNode :=
  .mk noPieceState 1 0 [(ActionKey.passKey 0, 1)] true none
    (.cons (ActionKey.passKey 0) c2Child .nil)

/-- Well-formedness of a board state: what `BoardState.__init__` establishes
and every operation preserves — a 20×20 grid, four remaining sets drawn
from the 21 piece ids, a current player in range, four move counters. -/
def WFState (st : BoardState) : Prop :=
  st.board_grid.length = 20 ∧
  (∀ row ∈ st.board_grid, row.length = 20) ∧
  st.pieces_remaining.length = 4 ∧
  (∀ s ∈ st.pieces_remaining, s ⊆ Finset.range 21) ∧
  st.current_player < 4 ∧
  st.moves_made.length = 4

/-- Well-formedness is decidable (used to discharge witness hypotheses). -/
instance decWFState (st : BoardState) : Decidable (WFState st) := by
  unfold WFState
  infer_instance

/-- Freshness facts about a newly created child node: never visited, zero
total, empty dicts, unexpanded, and a well-formed state. -/
def FreshOK (c : MCTSNode) : Prop :=
  c.visit_count = 0 ∧ c.total_value = 0 ∧ c.priors = [] ∧ c.expanded = false ∧
  c.children = .nil ∧ WFState c.state

/-! ### Claim C2: infrastructure for the visit-count theorem -/

mutual
/-- Number of nodes in a search tree. -/
def nodeSize : MCTSNode → ℕ
  | .mk _ _ _ _ _ _ ch => cmSize ch + 1

/-- Total node count across a children dict. -/
def cmSize : ChildMap → ℕ
  | .nil => 0
  | .cons _ c rest => nodeSize c + cmSize rest
end

mutual
/-- The tree invariant the search maintains: well-formed state, total value
bounded by the visit count, nonnegative priors, fresh dicts while
unexpanded, and the same recursively for all children. -/
def NodeOK : MCTSNode → Prop
  | .mk st vc tv pr ex _ ch =>
    WFState st ∧ |tv| ≤ (vc : ℝ) ∧ (∀ x ∈ pr, 0 ≤ Prod.snd x) ∧
    (ex = false → pr = [] ∧ ch = .nil) ∧ CMOK ch

/-- All nodes of a children dict satisfy the invariant. -/
def CMOK : ChildMap → Prop
  | .nil => True
  | .cons _ c rest => NodeOK c ∧ CMOK rest
end

/-- The evaluator contract: value estimates bounded by 1 in absolute value. -/
def ModelBounded (model : Model) : Prop := ∀ st, |model.value st| ≤ 1

/-- The root invariant after `k` simulations: `k` root visits, `k - 1`
visits among the root's children, root expanded with children. -/
def RootInv (t : MCTSNode) (k : ℕ) : Prop :=
  NodeOK t ∧ t.visit_count = k ∧ t.children.sumVisits = k - 1 ∧
  t.expanded = true ∧ t.children.isNil = false

/-! ## Part two: the theorems -/

/-! ### Claims C7 and C9 -/

/-- Claim C7: for every canonical piece shape, `get_all_orientations` returns
between 1 and 8 distinct offset-sets, each normalized so its minimum row and
minimum column are 0, and the returned collection is closed under
rotate-90-clockwise and horizontal flip. -/
theorem claim_C7_orientations :
    ∀ s ∈ ALL_SHAPES,
      (1 ≤ (get_all_orientations s).length ∧ (get_all_orientations s).length ≤ 8) ∧
      (get_all_orientations s).Nodup ∧
      (∀ o ∈ get_all_orientations s, minFst o = 0 ∧ minSnd o = 0) ∧
      (∀ o ∈ get_all_orientations s,
        rotate_90 o ∈ get_all_orientations s ∧
        flip_horizontal o ∈ get_all_orientations s) := by
  decide

/-- Witness for claim C7, at the monomino shape. -/
theorem claim_C7_orientations_witness :
    [((0 : ℤ), (0 : ℤ))] ∈ ALL_SHAPES ∧
      ((1 ≤ (get_all_orientations [((0 : ℤ), (0 : ℤ))]).length ∧
        (get_all_orientations [((0 : ℤ), (0 : ℤ))]).length ≤ 8) ∧
      (get_all_orientations [((0 : ℤ), (0 : ℤ))]).Nodup ∧
      (∀ o ∈ get_all_orientations [((0 : ℤ), (0 : ℤ))], minFst o = 0 ∧ minSnd o = 0) ∧
      (∀ o ∈ get_all_orientations [((0 : ℤ), (0 : ℤ))],
        rotate_90 o ∈ get_all_orientations [((0 : ℤ), (0 : ℤ))] ∧
        flip_horizontal o ∈ get_all_orientations [((0 : ℤ), (0 : ℤ))])) :=
  ⟨by decide, claim_C7_orientations _ (by decide)⟩

/-- Claim C9 (code bug): the shape table has exactly 21 entries, every entry
is normalized, but the entries are NOT pairwise distinct as offset-sets: the
literals at piece ids 11, 13 and 16 are identical, contradicting the module
docstring "21 distinct Blokus shapes". -/
theorem claim_C9_shape_table :
    ALL_SHAPES.length = 21 ∧
    (ALL_SHAPES.all fun s => minFst s == 0 && minSnd s == 0) = true ∧
    ALL_SHAPES.getD 11 [] = ALL_SHAPES.getD 13 [] ∧
    ALL_SHAPES.getD 13 [] = ALL_SHAPES.getD 16 [] := by
  decide

/-! ### Claim C6 -/

/-- Claim C6: `is_terminal` is true iff at least 4 consecutive passes have
occurred or all four colors' remaining-piece sets are empty; in particular
it is true after 4 consecutive passes regardless of remaining inventory. -/
theorem claim_C6_terminal (st : BoardState) :
    is_terminal st = true ↔
      (4 ≤ st.consecutive_passes ∨ ∀ c < 4, st.pieces_remaining.getD c ∅ = ∅) := by
  unfold is_terminal
  split
  · next h => simp [h]
  · next h =>
    simp only [List.all_eq_true, List.mem_range, decide_eq_true_eq, Finset.card_eq_zero]
    constructor
    · exact fun hall => Or.inr hall
    · rintro (h4 | hall)
      · exact absurd h4 h
      · exact hall

/-! ### Claims C4 and C5: the legality check -/

/-- If every shape cell lands in-bounds on an empty square, the first loop of
`check_legal_move` collects exactly the shifted squares, in order. -/
theorem collectPlaced_of_good (g : Grid) (ro co : ℤ) (l : List Coord)
    (h : ∀ p ∈ l, (inB (p.1 + ro) && inB (p.2 + co)) = true ∧
      gridGet g (p.1 + ro) (p.2 + co) = none) :
    collectPlaced g ro co l = some (l.map fun p => (p.1 + ro, p.2 + co)) := by
  induction l with
  | nil => rfl
  | cons p rest ih =>
    obtain ⟨hin, hempty⟩ := h p (List.mem_cons_self p rest)
    simp only [collectPlaced, hin, hempty, Bool.not_true, Option.isSome_none,
      Bool.false_eq_true, if_false, List.map_cons]
    rw [ih fun q hq => h q (List.mem_cons_of_mem p hq)]
    rfl

/-- Reading of the adjacency loop of `check_legal_move`: it succeeds iff no
placed square touches the own color edgewise and (the flag was already set
or) some placed square touches the own color diagonally. -/
theorem adjacencyLoop_spec (g : Grid) (color : ℕ) (l : List Coord) (acc : Bool) :
    adjacencyLoop g color l acc = true ↔
      ((∀ q ∈ l, touches g color edge_neighbors q = false) ∧
        (acc = true ∨ ∃ q ∈ l, touches g color corner_neighbors q = true)) := by
  induction l generalizing acc with
  | nil => simp [adjacencyLoop]
  | cons p rest ih =>
    simp only [adjacencyLoop]
    split
    · next hedge =>
      simp only [Bool.false_eq_true, false_iff, not_and, not_or]
      intro hall
      exact absurd (hall p (List.mem_cons_self p rest)) (by simp [hedge])
    · next hedge =>
      rw [ih]
      constructor
      · rintro ⟨hall, hflag | hex⟩
        · refine ⟨fun q hq => ?_, ?_⟩
          · rcases List.mem_cons.1 hq with rfl | hq
            · exact Bool.not_eq_true _ ▸ (by simpa using hedge)
            · exact hall q hq
          · rcases Bool.or_eq_true_iff.1 hflag with h | h
            · exact Or.inl h
            · exact Or.inr ⟨p, List.mem_cons_self p rest, h⟩
        · refine ⟨fun q hq => ?_, Or.inr ?_⟩
          · rcases List.mem_cons.1 hq with rfl | hq
            · exact Bool.not_eq_true _ ▸ (by simpa using hedge)
            · exact hall q hq
          · obtain ⟨q, hq, hqc⟩ := hex
            exact ⟨q, List.mem_cons_of_mem p hq, hqc⟩
      · rintro ⟨hall, hflag | hex⟩
        · exact ⟨fun q hq => hall q (List.mem_cons_of_mem p hq), Or.inl (by simp [hflag])⟩
        · obtain ⟨q, hq, hqc⟩ := hex
          rcases List.mem_cons.1 hq with rfl | hq
          · exact ⟨fun r hr => hall r (List.mem_cons_of_mem q hr), Or.inl (by simp [hqc])⟩
          · exact ⟨fun r hr => hall r (List.mem_cons_of_mem p hr),
              Or.inr ⟨q, hq, hqc⟩⟩

/-- Unfolding of `check_legal_move` when every placed cell is in-bounds and
empty. -/
theorem check_legal_move_of_good (st : BoardState) (mv : Move)
    (hcells : ∀ p ∈ mv.shape_coords,
      (inB (p.1 + mv.row_off) && inB (p.2 + mv.col_off)) = true ∧
      gridGet st.board_grid (p.1 + mv.row_off) (p.2 + mv.col_off) = none) :
    check_legal_move st mv =
      if mv.piece_id ∈ st.pieces_remaining.getD st.current_player ∅ then
        if st.moves_made.getD st.current_player 0 = 0 then
          decide (CORNER_POSITIONS.getD st.current_player (0, 0) ∈
            mv.shape_coords.map (fun p => (p.1 + mv.row_off, p.2 + mv.col_off)))
        else
          adjacencyLoop st.board_grid st.current_player
            (mv.shape_coords.map (fun p => (p.1 + mv.row_off, p.2 + mv.col_off))) false
      else false := by
  unfold check_legal_move
  rw [collectPlaced_of_good _ _ _ _ hcells]

/-- Claim C4: on a color's first move, with the piece available and every
placed cell in-bounds and empty, `check_legal_move` accepts iff the placed
cells include that color's designated corner (and then unconditionally, no
adjacency condition applying). -/
theorem claim_C4_first_move (st : BoardState) (mv : Move)
    (_hcp : st.current_player < 4)
    (hpid : mv.piece_id ∈ st.pieces_remaining.getD st.current_player ∅)
    (hcells : ∀ p ∈ mv.shape_coords,
      (inB (p.1 + mv.row_off) && inB (p.2 + mv.col_off)) = true ∧
      gridGet st.board_grid (p.1 + mv.row_off) (p.2 + mv.col_off) = none)
    (hfirst : st.moves_made.getD st.current_player 0 = 0) :
    check_legal_move st mv = true ↔
      CORNER_POSITIONS.getD st.current_player (0, 0) ∈
        mv.shape_coords.map (fun p => (p.1 + mv.row_off, p.2 + mv.col_off)) := by
  rw [check_legal_move_of_good st mv hcells, if_pos hpid, if_pos hfirst]
  exact decide_eq_true_iff

/-- Witness for claim C4: the monomino placed on color 0's corner from the
initial position. -/
theorem claim_C4_first_move_witness :
    initialBoardState.current_player < 4 ∧
    (⟨0, 0, 0, [(0, 0)]⟩ : Move).piece_id ∈
      initialBoardState.pieces_remaining.getD initialBoardState.current_player ∅ ∧
    (∀ p ∈ (⟨0, 0, 0, [(0, 0)]⟩ : Move).shape_coords,
      (inB (p.1 + 0) && inB (p.2 + 0)) = true ∧
      gridGet initialBoardState.board_grid (p.1 + 0) (p.2 + 0) = none) ∧
    initialBoardState.moves_made.getD initialBoardState.current_player 0 = 0 ∧
    (check_legal_move initialBoardState ⟨0, 0, 0, [(0, 0)]⟩ = true ↔
      CORNER_POSITIONS.getD initialBoardState.current_player (0, 0) ∈
        ([(0, 0)] : List Coord).map (fun p => (p.1 + 0, p.2 + 0))) :=
  ⟨by decide, by decide, by decide, by decide,
    claim_C4_first_move initialBoardState ⟨0, 0, 0, [(0, 0)]⟩
      (by decide) (by decide) (by decide) (by decide)⟩

/-- Claim C5: after a color's first move (piece available, placed cells
in-bounds and empty), a placement edge-adjacent to an own-color cell is
rejected, and otherwise it is accepted iff some placed cell is diagonally
adjacent to an own-color cell. -/
theorem claim_C5_adjacency (st : BoardState) (mv : Move)
    (hpid : mv.piece_id ∈ st.pieces_remaining.getD st.current_player ∅)
    (hcells : ∀ p ∈ mv.shape_coords,
      (inB (p.1 + mv.row_off) && inB (p.2 + mv.col_off)) = true ∧
      gridGet st.board_grid (p.1 + mv.row_off) (p.2 + mv.col_off) = none)
    (hlater : st.moves_made.getD st.current_player 0 ≠ 0) :
    ((∃ q ∈ mv.shape_coords.map (fun p => (p.1 + mv.row_off, p.2 + mv.col_off)),
        touches st.board_grid st.current_player edge_neighbors q = true) →
      check_legal_move st mv = false) ∧
    ((∀ q ∈ mv.shape_coords.map (fun p => (p.1 + mv.row_off, p.2 + mv.col_off)),
        touches st.board_grid st.current_player edge_neighbors q = false) →
      (check_legal_move st mv = true ↔
        ∃ q ∈ mv.shape_coords.map (fun p => (p.1 + mv.row_off, p.2 + mv.col_off)),
          touches st.board_grid st.current_player corner_neighbors q = true)) := by
  rw [check_legal_move_of_good st mv hcells, if_pos hpid, if_neg hlater]
  constructor
  · rintro ⟨q, hq, hqe⟩
    rw [Bool.eq_false_iff]
    intro htrue
    obtain ⟨hall, -⟩ := (adjacencyLoop_spec _ _ _ _).1 htrue
    rw [hall q hq] at hqe
    exact Bool.false_ne_true hqe
  · intro hall
    rw [adjacencyLoop_spec]
    constructor
    · rintro ⟨-, h | hex⟩
      · exact absurd h (by simp)
      · exact hex
    · intro hex
      exact ⟨hall, Or.inr hex⟩

/-- Witness theorem for claim C5. -/
theorem claim_C5_adjacency_witness :
    ((⟨0, 1, 1, [(0, 0)]⟩ : Move).piece_id ∈
      ownCornerState.pieces_remaining.getD ownCornerState.current_player ∅) ∧
    (∀ p ∈ (⟨0, 1, 1, [(0, 0)]⟩ : Move).shape_coords,
      (inB (p.1 + 1) && inB (p.2 + 1)) = true ∧
      gridGet ownCornerState.board_grid (p.1 + 1) (p.2 + 1) = none) ∧
    (ownCornerState.moves_made.getD ownCornerState.current_player 0 ≠ 0) ∧
    (((∃ q ∈ ([(0, 0)] : List Coord).map (fun p => (p.1 + 1, p.2 + 1)),
        touches ownCornerState.board_grid ownCornerState.current_player edge_neighbors q = true) →
      check_legal_move ownCornerState ⟨0, 1, 1, [(0, 0)]⟩ = false) ∧
    ((∀ q ∈ ([(0, 0)] : List Coord).map (fun p => (p.1 + 1, p.2 + 1)),
        touches ownCornerState.board_grid ownCornerState.current_player edge_neighbors q = false) →
      (check_legal_move ownCornerState ⟨0, 1, 1, [(0, 0)]⟩ = true ↔
        ∃ q ∈ ([(0, 0)] : List Coord).map (fun p => (p.1 + 1, p.2 + 1)),
          touches ownCornerState.board_grid ownCornerState.current_player corner_neighbors q = true))) :=
  ⟨by decide, by decide, by decide,
    claim_C5_adjacency ownCornerState ⟨0, 1, 1, [(0, 0)]⟩ (by decide) (by decide) (by decide)⟩

/-! ### Claim C3: `apply_move` performs no legality check -/

/-- A Python index in `[-len, len)` resolves, to a position below `len`. -/
theorem pyIndex_valid (len : ℕ) (i : ℤ) (h1 : -(len : ℤ) ≤ i) (h2 : i < (len : ℤ)) :
    ∃ j, pyIndex len i = some j ∧ j < len := by
  unfold pyIndex
  by_cases h0 : 0 ≤ i
  · exact ⟨i.toNat, by rw [if_pos ⟨h0, h2⟩], by omega⟩
  · refine ⟨(i + (len : ℤ)).toNat, ?_, by omega⟩
    rw [if_neg (by omega), if_pos ⟨h1, by omega⟩]

/-- A board write inside Python's index range succeeds and preserves the
grid dimensions. -/
theorem gridWrite_ok (g : Grid) (r c : ℤ) (color : ℕ)
    (hg : g.length = 20) (hrows : ∀ row ∈ g, row.length = 20)
    (hr1 : -20 ≤ r) (hr2 : r < 20) (hc1 : -20 ≤ c) (hc2 : c < 20) :
    ∃ g2, gridWrite g r c color = some g2 ∧ g2.length = 20 ∧
      ∀ row ∈ g2, row.length = 20 := by
  obtain ⟨ri, hri, hriBound⟩ := pyIndex_valid g.length r (by omega) (by omega)
  have hrow : g.getD ri [] ∈ g := by
    rw [List.getD_eq_getElem g [] (by omega)]
    exact g.getElem_mem (by omega)
  have hrowLen : (g.getD ri []).length = 20 := hrows _ hrow
  obtain ⟨ci, hci, hciBound⟩ :=
    pyIndex_valid (g.getD ri []).length c (by omega) (by omega)
  refine ⟨g.set ri ((g.getD ri []).set ci (some color)), ?_, ?_, ?_⟩
  · simp only [gridWrite, hri, hci]
  · simpa using hg
  · intro row hrowMem
    rcases List.mem_or_eq_of_mem_set hrowMem with hmem | rfl
    · exact hrows _ hmem
    · simpa using hrowLen

/-- The whole placement loop succeeds when every cell is in Python's index
range. -/
theorem writeCells_ok (l : List Coord) (g : Grid) (ro co : ℤ) (color : ℕ)
    (hg : g.length = 20) (hrows : ∀ row ∈ g, row.length = 20)
    (hl : ∀ p ∈ l, -20 ≤ p.1 + ro ∧ p.1 + ro < 20 ∧ -20 ≤ p.2 + co ∧ p.2 + co < 20) :
    ∃ g2, writeCells g ro co color l = some g2 ∧ g2.length = 20 ∧
      ∀ row ∈ g2, row.length = 20 := by
  induction l generalizing g with
  | nil => exact ⟨g, rfl, hg, hrows⟩
  | cons p rest ih =>
    obtain ⟨h1, h2, h3, h4⟩ := hl p (List.mem_cons_self p rest)
    obtain ⟨g2, hw, hg2, hrows2⟩ := gridWrite_ok g (p.1 + ro) (p.2 + co) color hg hrows h1 h2 h3 h4
    obtain ⟨g3, hw3, hg3, hrows3⟩ := ih g2 hg2 hrows2
      (fun q hq => hl q (List.mem_cons_of_mem p hq))
    exact ⟨g3, by simp only [writeCells, hw]; exact hw3, hg3, hrows3⟩

/-- Claim C3 (amended): `apply_move` performs no legality check at all.  On a
well-formed 20×20 grid it returns a successor state for every placement
whose piece id is available and whose cells land inside Python's index range
`[-20, 20)` — including moves that fail `check_legal_move` (occupied cells,
adjacency or corner violations, negative in-range offsets); it raises only
for an unavailable piece id or an out-of-range cell index. -/
theorem claim_C3_apply_is_unchecked (st : BoardState) (mv : Move)
    (hg : st.board_grid.length = 20)
    (hrows : ∀ row ∈ st.board_grid, row.length = 20)
    (hpid : mv.piece_id ∈ st.pieces_remaining.getD st.current_player ∅)
    (hcells : ∀ p ∈ mv.shape_coords,
      -20 ≤ p.1 + mv.row_off ∧ p.1 + mv.row_off < 20 ∧
      -20 ≤ p.2 + mv.col_off ∧ p.2 + mv.col_off < 20) :
    isOkE (apply_move st (some mv)) = true := by
  obtain ⟨g2, hw, -, -⟩ :=
    writeCells_ok mv.shape_coords st.board_grid mv.row_off mv.col_off
      st.current_player hg hrows hcells
  simp only [apply_move, if_pos hpid, hw, isOkE]

/-- Counterexample for claim C3 as stated: from `ownCornerState`, placing the
monomino at (0,1) is edge-adjacent to the own stone at (0,0), so it fails
`check_legal_move`; yet `apply_move` silently returns a successor state
instead of raising. -/
theorem claim_C3_counterexample :
    check_legal_move ownCornerState ⟨0, 0, 1, [(0, 0)]⟩ = false ∧
    isOkE (apply_move ownCornerState (some ⟨0, 0, 1, [(0, 0)]⟩)) = true := by
  decide

/-- Witness for the amended claim C3, at the illegal move of the
counterexample input. -/
theorem claim_C3_apply_is_unchecked_witness :
    ownCornerState.board_grid.length = 20 ∧
    (∀ row ∈ ownCornerState.board_grid, row.length = 20) ∧
    (⟨0, 0, 1, [(0, 0)]⟩ : Move).piece_id ∈
      ownCornerState.pieces_remaining.getD ownCornerState.current_player ∅ ∧
    (∀ p ∈ (⟨0, 0, 1, [(0, 0)]⟩ : Move).shape_coords,
      -20 ≤ p.1 + 0 ∧ p.1 + 0 < 20 ∧ -20 ≤ p.2 + 1 ∧ p.2 + 1 < 20) ∧
    isOkE (apply_move ownCornerState (some ⟨0, 0, 1, [(0, 0)]⟩)) = true :=
  ⟨by decide, by decide, by decide, by decide,
    claim_C3_apply_is_unchecked ownCornerState ⟨0, 0, 1, [(0, 0)]⟩
      (by decide) (by decide) (by decide) (by decide)⟩

/-- `getD` is unchanged by `set` at a different index. -/
theorem getD_set_ne {α : Type} (l : List α) (i j : ℕ) (x : α) (d : α)
    (hne : i ≠ j) : (l.set i x).getD j d = l.getD j d := by
  simp [List.getD_eq_getElem?_getD, List.getElem?_set_ne hne]

/-- `pyIndex` only resolves to positions below the length. -/
theorem pyIndex_lt (len : ℕ) (i : ℤ) (j : ℕ) (h : pyIndex len i = some j) :
    j < len := by
  unfold pyIndex at h
  split at h
  · next hc => cases h; omega
  · split at h
    · next hc => cases h; omega
    · cases h

/-- `AgreesBelow` is reflexive. -/
theorem agrees_refl (h : PyHeap) (rb sb ib : ℕ) : AgreesBelow h h rb sb ib :=
  ⟨fun _ _ => rfl, fun _ _ => rfl, fun _ _ => rfl⟩

/-- `AgreesBelow` is transitive. -/
theorem agrees_trans {h1 h2 h3 : PyHeap} {rb sb ib : ℕ}
    (a12 : AgreesBelow h1 h2 rb sb ib) (a23 : AgreesBelow h2 h3 rb sb ib) :
    AgreesBelow h1 h3 rb sb ib :=
  ⟨fun a ha => (a23.1 a ha).trans (a12.1 a ha),
   fun a ha => (a23.2.1 a ha).trans (a12.2.1 a ha),
   fun a ha => (a23.2.2 a ha).trans (a12.2.2 a ha)⟩

/-- Cloning allocates only fresh addresses: the old ones read unchanged. -/
theorem agrees_clone (h : PyHeap) (s : BoardStateObj) :
    AgreesBelow h (cloneObj h s).1 h.rows.length h.sets.length h.ilists.length := by
  refine ⟨fun a ha => ?_, fun a ha => ?_, fun a ha => ?_⟩
  · exact List.getD_append _ _ _ _ ha
  · exact List.getD_append _ _ _ _ ha
  · exact List.getD_append _ _ _ _ ha

/-- Writing a row at an address at or above the base leaves lower addresses
unchanged. -/
theorem agrees_writeRowH (h : PyHeap) (a : ℕ) (row : List Cell)
    (rb sb ib : ℕ) (ha : rb ≤ a) : AgreesBelow h (writeRowH h a row) rb sb ib :=
  ⟨fun x hx => getD_set_ne _ _ _ _ _ (by omega), fun _ _ => rfl, fun _ _ => rfl⟩

/-- Writing a set at an address at or above the base leaves lower addresses
unchanged. -/
theorem agrees_writeSetH (h : PyHeap) (a : ℕ) (v : Finset ℕ)
    (rb sb ib : ℕ) (ha : sb ≤ a) : AgreesBelow h (writeSetH h a v) rb sb ib :=
  ⟨fun _ _ => rfl, fun x hx => getD_set_ne _ _ _ _ _ (by omega), fun _ _ => rfl⟩

/-- Writing a moves list at an address at or above the base leaves lower
addresses unchanged. -/
theorem agrees_writeILH (h : PyHeap) (a : ℕ) (v : List ℕ)
    (rb sb ib : ℕ) (ha : ib ≤ a) : AgreesBelow h (writeILH h a v) rb sb ib :=
  ⟨fun _ _ => rfl, fun _ _ => rfl, fun x hx => getD_set_ne _ _ _ _ _ (by omega)⟩

/-- A heap grid write through an object whose row references are all at or
above the base leaves lower addresses unchanged. -/
theorem agrees_gridWriteH (h h2 : PyHeap) (o : BoardStateObj) (r c : ℤ)
    (color : ℕ) (rb sb ib : ℕ) (href : ∀ a ∈ o.grid_refs, rb ≤ a)
    (hw : gridWriteH h o r c color = some h2) : AgreesBelow h h2 rb sb ib := by
  unfold gridWriteH at hw
  rcases hpi : pyIndex o.grid_refs.length r with _ | ri
  · rw [hpi] at hw; cases hw
  · rw [hpi] at hw
    simp only at hw
    rcases hpc : pyIndex (readRow h (o.grid_refs.getD ri 0)).length c with _ | ci
    · rw [hpc] at hw; cases hw
    · rw [hpc] at hw
      simp only [Option.some.injEq] at hw
      subst hw
      refine agrees_writeRowH _ _ _ _ _ _ (href _ ?_)
      rw [List.getD_eq_getElem _ _ (pyIndex_lt _ _ _ hpi)]
      exact List.getElem_mem _

/-- The placement loop only writes through the object's row references. -/
theorem agrees_writeCellsH (l : List Coord) (h : PyHeap) (o : BoardStateObj)
    (ro co : ℤ) (color : ℕ) (rb sb ib : ℕ)
    (href : ∀ a ∈ o.grid_refs, rb ≤ a) :
    AgreesBelow h (writeCellsH h o ro co color l).1 rb sb ib := by
  induction l generalizing h with
  | nil => exact agrees_refl _ _ _ _
  | cons p rest ih =>
    rcases p with ⟨r, c⟩
    unfold writeCellsH
    rcases hw : gridWriteH h o (r + ro) (c + co) color with _ | h2
    · exact agrees_refl _ _ _ _
    · exact agrees_trans (agrees_gridWriteH h h2 o _ _ color rb sb ib href hw) (ih h2)

/-- `getD` of a shifted range list. -/
theorem getD_map_range_add (base n c : ℕ) (hc : c < n) :
    ((List.range n).map (base + ·)).getD c 0 = base + c := by
  rw [List.getD_eq_getElem _ _ (by simpa using hc)]
  simp

/-- The whole of `apply_move_imp` (in every branch, raising or not) leaves
every address below the original arena sizes unchanged. -/
theorem apply_move_imp_agrees (h : PyHeap) (s : BoardStateObj) (mv : Option Move)
    (hcp : s.current_player < s.set_refs.length) :
    AgreesBelow h (apply_move_imp h s mv).1
      h.rows.length h.sets.length h.ilists.length := by
  have hclone := agrees_clone h s
  have hrefs : ∀ a ∈ (cloneObj h s).2.grid_refs, h.rows.length ≤ a := by
    intro a ha
    simp only [cloneObj, List.mem_map, List.mem_range] at ha
    obtain ⟨i, -, rfl⟩ := ha
    omega
  have hsa : (cloneObj h s).2.set_refs.getD (cloneObj h s).2.current_player 0 =
      h.sets.length + s.current_player := by
    simpa only [cloneObj] using
      getD_map_range_add h.sets.length s.set_refs.length s.current_player hcp
  rcases mv with _ | m
  · exact hclone
  · show AgreesBelow h
      (apply_move_imp h s (some m)).1 h.rows.length h.sets.length h.ilists.length
    unfold apply_move_imp
    simp only
    by_cases hmem : m.piece_id ∈ readSet (cloneObj h s).1
        ((cloneObj h s).2.set_refs.getD (cloneObj h s).2.current_player 0)
    · rw [if_pos hmem]
      set h2 := writeSetH (cloneObj h s).1
        ((cloneObj h s).2.set_refs.getD (cloneObj h s).2.current_player 0)
        ((readSet (cloneObj h s).1
          ((cloneObj h s).2.set_refs.getD (cloneObj h s).2.current_player 0)).erase
            m.piece_id) with hh2
      have a2 : AgreesBelow h h2 h.rows.length h.sets.length h.ilists.length := by
        refine agrees_trans hclone ?_
        rw [hh2]
        exact agrees_writeSetH _ _ _ _ _ _ (by rw [hsa]; omega)
      have a3 : AgreesBelow h
          (writeCellsH h2 (cloneObj h s).2 m.row_off m.col_off
            (cloneObj h s).2.current_player m.shape_coords).1
          h.rows.length h.sets.length h.ilists.length :=
        agrees_trans a2 (agrees_writeCellsH _ _ _ _ _ _ _ _ _ hrefs)
      by_cases hdone : (writeCellsH h2 (cloneObj h s).2 m.row_off m.col_off
          (cloneObj h s).2.current_player m.shape_coords).2 = true
      · rw [if_pos hdone]
        refine agrees_trans a3 (agrees_writeILH _ _ _ _ _ _ ?_)
        simp [cloneObj]
      · rw [if_neg hdone]
        exact a3
    · rw [if_neg hmem]
      exact hclone

/-- Claim C8: applying any move (placement or pass) through the heap model
leaves the input state object completely unchanged — its grid contents,
remaining-piece sets, moves counts, current player and pass counter read
identically before and after the call.  (`cloneObj` deep-copies every
mutable member, and every write of `apply_move_imp` targets only the fresh
copies.) -/
theorem claim_C8_apply_preserves_input (h : PyHeap) (s : BoardStateObj)
    (mv : Option Move) (hv : ValidObj h s) :
    readState (apply_move_imp h s mv).1 s = readState h s := by
  obtain ⟨hg, hs, hi, hcp⟩ := hv
  obtain ⟨hrowsA, hsetsA, hilA⟩ := apply_move_imp_agrees h s mv hcp
  unfold readState
  refine Prod.ext ?_ (Prod.ext ?_ (Prod.ext ?_ rfl))
  · exact List.map_congr_left fun a ha => hrowsA a (hg a ha)
  · exact List.map_congr_left fun a ha => hsetsA a (hs a ha)
  · exact hilA _ hi

/-- Witness for claim C8, at a pass move in the tiny heap. -/
theorem claim_C8_apply_preserves_input_witness :
    ValidObj heap0 obj0 ∧
    readState (apply_move_imp heap0 obj0 none).1 obj0 = readState heap0 obj0 :=
  ⟨⟨by decide, by decide, by decide, by decide⟩,
    claim_C8_apply_preserves_input heap0 obj0 none
      ⟨by decide, by decide, by decide, by decide⟩⟩

/-- Claim C1 (code bug): `ucb_score` reads the prior from the CHILD's own
priors dict (`child.priors.get(child.last_action_key, 0)`), not from the
parent's stored prior as the selection formula requires; at this input the
source computes score 0 where the stated formula gives 1/2. -/
theorem claim_C1_ucb_prior_bug :
    ucb_score ucbParent ucbChild 1 = ((0 : ℝ) : WithTop ℝ) ∧
    spec_ucb_score ucbParent ucbChild 1 = ((1 / 2 : ℝ) : WithTop ℝ) ∧
    ucb_score ucbParent ucbChild 1 ≠ spec_ucb_score ucbParent ucbChild 1 := by
  have hv : ucbChild.visit_count = 1 := rfl
  have hm : ucbChild.mean_value = 0 := by
    simp [MCTSNode.mean_value, hv, show ucbChild.total_value = (0 : ℝ) from rfl]
  have hpch : priorsGet ucbChild.priors ucbChild.lastKey = 0 := rfl
  have hpsp : priorsGet ucbParent.priors ucbChild.lastKey = 1 / 2 := by
    simp [priorsGet, ucbParent, ucbChild, MCTSNode.priors, MCTSNode.lastKey, List.find?]
  have hsqrt : Real.sqrt (ucbParent.visit_count : ℝ) = 2 := by
    rw [show ((ucbParent.visit_count : ℝ)) = 2 ^ 2 by norm_num [ucbParent, MCTSNode.visit_count]]
    exact Real.sqrt_sq (by norm_num)
  have h1 : ucb_score ucbParent ucbChild 1 = ((0 : ℝ) : WithTop ℝ) := by
    unfold ucb_score
    rw [if_neg (by simp [hv])]
    rw [hm, hpch, hsqrt, hv]
    norm_num
  have h2 : spec_ucb_score ucbParent ucbChild 1 = ((1 / 2 : ℝ) : WithTop ℝ) := by
    unfold spec_ucb_score
    rw [if_neg (by simp [hv])]
    rw [hm, hpsp, hsqrt, hv]
    norm_num
  refine ⟨h1, h2, ?_⟩
  rw [h1, h2]
  intro h
  have : (0 : ℝ) = 1 / 2 := by exact_mod_cast h
  norm_num at this

/-- `noPieceState` is not terminal. -/
theorem noPieceState_not_terminal : is_terminal noPieceState = false := by decide

/-- Expanding the fresh root over `noPieceState` produces exactly the pass
child with prior 1. -/
theorem expand_noPieceState :
    expand_node uniformModel (freshRoot noPieceState) = some c2PreRoot := by
  have hdp : decode_policy (uniformModel.policy noPieceState)
      (noPieceState.pieces_remaining.getD noPieceState.current_player ∅) 1 =
      ⟨fun _ => 0, 1⟩ := by
    unfold decode_policy
    rw [if_pos (show noPieceState.pieces_remaining.getD noPieceState.current_player ∅ = ∅
      from rfl)]
  have hsort : Finset.sort (fun a b => a ≤ b)
      (noPieceState.pieces_remaining.getD noPieceState.current_player ∅) = [] := by
    rw [show noPieceState.pieces_remaining.getD noPieceState.current_player ∅ = (∅ : Finset ℕ)
      from rfl]
    simp
  have hlm : get_legal_moves noPieceState = [] := by
    simp only [get_legal_moves]
    rw [hsort]
    rfl
  show expand_node uniformModel (.mk noPieceState 0 0 [] false none .nil) = _
  simp only [expand_node, noPieceState_not_terminal, Bool.false_eq_true, if_false, hdp,
    hsort, hlm]
  simp only [pieceLoop]
  rw [if_pos (show (0 : ℝ) <
    ({ pieceProb := fun _ => 0, passProb := 1 } : PiecePolicy).passProb by norm_num)]
  rw [show apply_move noPieceState none = Except.ok c2PassState from rfl]
  rfl

/-- One simulation from the fresh root over `noPieceState`. -/
theorem simulate_noPieceState :
    simulate uniformModel 1 (freshRoot noPieceState) = some (c2Root, 0) := by
  have heval : evaluate_node uniformModel c2PreRoot = 0 := by
    unfold evaluate_node
    rw [if_neg (by simp [show c2PreRoot.state = noPieceState from rfl,
      noPieceState_not_terminal])]
    rfl
  show simulate uniformModel 1 (.mk noPieceState 0 0 [] false none .nil) = _
  simp only [simulate, ChildMap.isNil, Bool.false_and, Bool.not_false,
    noPieceState_not_terminal, Bool.true_and, if_true, Bool.false_eq_true, if_false]
  rw [show (expand_node uniformModel (MCTSNode.mk noPieceState 0 0 [] false none .nil)) =
    some c2PreRoot from expand_noPieceState]
  show some (bumpNode c2PreRoot (evaluate_node uniformModel c2PreRoot),
    evaluate_node uniformModel c2PreRoot) = some (c2Root, 0)
  rw [heval]
  simp only [bumpNode, c2PreRoot, c2Root, Option.some.injEq, Prod.mk.injEq,
    MCTSNode.mk.injEq]
  norm_num

/-- Counterexample for claim C2 as stated: one simulation (N = 1) from a
fresh non-terminal root with the uniform stub evaluator leaves the sum of
the root children's visit counts at 0, not N = 1 — the first simulation
expands the root and increments only the root itself. -/
theorem claim_C2_counterexample :
    (mcts_search uniformModel 1 (freshRoot noPieceState) 1).map
      (fun t => t.children.sumVisits) = some 0 ∧
    (mcts_search uniformModel 1 (freshRoot noPieceState) 1).map
      (fun t => t.children.sumVisits) ≠ some 1 := by
  have hrun : mcts_search uniformModel 1 (freshRoot noPieceState) 1 = some c2Root := by
    simp only [mcts_search, simulate_noPieceState]
  rw [hrun]
  refine ⟨rfl, ?_⟩
  intro h
  rw [show (some c2Root).map (fun t => t.children.sumVisits) = some 0 from rfl] at h
  simp at h

/-- A successful `collectPlaced` means every shape cell was in bounds. -/
theorem collectPlaced_bounds (g : Grid) (ro co : ℤ) (l : List Coord)
    (placed : List Coord) (h : collectPlaced g ro co l = some placed) :
    ∀ p ∈ l, (inB (p.1 + ro) && inB (p.2 + co)) = true := by
  induction l generalizing placed with
  | nil => intro p hp; cases hp
  | cons q rest ih =>
    rcases q with ⟨r, c⟩
    unfold collectPlaced at h
    simp only [] at h
    by_cases hin : (inB (r + ro) && inB (c + co)) = true
    · rw [hin] at h
      simp only [Bool.not_true, Bool.false_eq_true, if_false] at h
      split at h
      · cases h
      · rcases hmap : collectPlaced g ro co rest with _ | placed2
        · rw [hmap] at h; cases h
        · intro p hp
          rcases List.mem_cons.1 hp with rfl | hp
          · exact hin
          · exact ih placed2 hmap p hp
    · rw [Bool.not_eq_true] at hin
      rw [hin] at h
      simp at h

/-- A legal move's piece is available and all its cells are in bounds. -/
theorem check_legal_move_facts (st : BoardState) (mv : Move)
    (h : check_legal_move st mv = true) :
    mv.piece_id ∈ st.pieces_remaining.getD st.current_player ∅ ∧
    ∀ p ∈ mv.shape_coords,
      (inB (p.1 + mv.row_off) && inB (p.2 + mv.col_off)) = true := by
  unfold check_legal_move at h
  simp only [] at h
  by_cases hmem : mv.piece_id ∈ st.pieces_remaining.getD st.current_player ∅
  · rw [if_pos hmem] at h
    refine ⟨hmem, ?_⟩
    rcases hcp : collectPlaced st.board_grid mv.row_off mv.col_off mv.shape_coords
      with _ | placed
    · rw [hcp] at h
      simp at h
    · exact collectPlaced_bounds _ _ _ _ _ hcp
  · rw [if_neg hmem] at h
    simp at h

/-- On a well-formed state, a move that passes `check_legal_move` applies
without error, and the successor is well-formed with the piece removed,
the move counter bumped and the turn advanced. -/
theorem apply_move_of_legal (st : BoardState) (mv : Move)
    (hWF : WFState st) (h : check_legal_move st mv = true) :
    ∃ st2, apply_move st (some mv) = .ok st2 ∧ WFState st2 ∧
      st2.pieces_remaining.getD st2.current_player ∅ ⊆ Finset.range 21 := by
  obtain ⟨hg, hrows, hlen, hsub, hcp, hmm⟩ := hWF
  obtain ⟨hmem, hcells⟩ := check_legal_move_facts st mv h
  obtain ⟨g2, hw, hg2, hrows2⟩ :=
    writeCells_ok mv.shape_coords st.board_grid mv.row_off mv.col_off
      st.current_player hg hrows (by
        intro p hp
        have := hcells p hp
        simp only [inB, BOARD_SIZE, Bool.and_eq_true, decide_eq_true_eq] at this
        omega)
  have hWF2 : WFState (BoardState.mk g2 (st.pieces_remaining.set st.current_player ((st.pieces_remaining.getD st.current_player ∅).erase mv.piece_id)) ((st.current_player + 1) % 4) (st.moves_made.set st.current_player (st.moves_made.getD st.current_player 0 + 1)) 0) := by
    refine ⟨hg2, hrows2, by simpa using hlen, ?_,
      by show (st.current_player + 1) % 4 < 4; omega, by simpa using hmm⟩
    intro s hs
    rcases List.mem_or_eq_of_mem_set hs with hmem2 | rfl
    · exact hsub s hmem2
    · refine Finset.Subset.trans (Finset.erase_subset _ _) (hsub _ ?_)
      rw [List.getD_eq_getElem st.pieces_remaining ∅ (by omega)]
      exact List.getElem_mem _
  refine ⟨_, by simp only [apply_move]; rw [if_pos hmem, hw], hWF2, ?_⟩
  obtain ⟨-, -, hlen2, hsub2, hcp2, -⟩ := hWF2
  refine hsub2 _ ?_
  have hlt : (st.current_player + 1) % 4 <
      (st.pieces_remaining.set st.current_player
        ((st.pieces_remaining.getD st.current_player ∅).erase mv.piece_id)).length := by
    rw [List.length_set]
    omega
  rw [List.getD_eq_getElem _ ∅ hlt]
  exact List.getElem_mem _

/-- Every member of `get_legal_moves` passes `check_legal_move`. -/
theorem get_legal_moves_legal (st : BoardState) (mv : Move)
    (h : mv ∈ get_legal_moves st) : check_legal_move st mv = true := by
  unfold get_legal_moves at h
  simp only [] at h
  rw [List.mem_flatMap] at h
  obtain ⟨pid, -, h⟩ := h
  rw [List.mem_flatMap] at h
  obtain ⟨o, -, h⟩ := h
  unfold placementsFor at h
  rw [List.mem_flatMap] at h
  obtain ⟨ro, -, h⟩ := h
  rw [List.mem_filterMap] at h
  obtain ⟨co, -, h⟩ := h
  split at h
  · next hc =>
    obtain rfl := Option.some_injective _ h
    exact hc
  · cases h

/-- With a nonempty legal set and temperature 1, `decode_policy` is the
softmax over the masked logits: there is a positive weight per index, legal
pieces get their normalized weight, everything else 0, pass gets index 21's
weight. -/
theorem decode_policy_softmax_form (logits : Fin 22 → ℝ) (legal : Finset ℕ)
    (hne : legal ≠ ∅) :
    ∃ e : Fin 22 → ℝ, (∀ i, 0 < e i) ∧
      ((decode_policy logits legal 1).pieceProb = fun pid =>
        if h : pid < 21 ∧ pid ∈ legal then e ⟨pid, by omega⟩ / (∑ i, e i) else 0) ∧
      (decode_policy logits legal 1).passProb = e 21 / (∑ i, e i) := by
  unfold decode_policy
  split
  · next h => exact absurd h hne
  · split
    · refine ⟨fun i => Real.exp ((if i.val ∈ legal ∨ i.val = 21 then logits i else
          (-1000000000 : ℝ)) / 1 - Finset.univ.sup' ⟨0, Finset.mem_univ 0⟩ fun j =>
          (if j.val ∈ legal ∨ j.val = 21 then logits j else (-1000000000 : ℝ)) / 1),
        fun i => Real.exp_pos _, rfl, rfl⟩
    · next h => exact absurd (by norm_num : (1e-8 : ℝ) < 1) h

/-- `decode_policy` with no legal piece: everything on pass. -/
theorem decode_policy_empty (logits : Fin 22 → ℝ) (T : ℝ) :
    decode_policy logits ∅ T = ⟨fun _ => 0, 1⟩ := by
  unfold decode_policy
  exact if_pos rfl

/-- The decoded pass probability is always positive. -/
theorem decode_passProb_pos (logits : Fin 22 → ℝ) (legal : Finset ℕ) :
    0 < (decode_policy logits legal 1).passProb := by
  by_cases hne : legal = ∅
  · subst hne
    rw [decode_policy_empty]
    show (0 : ℝ) < 1
    norm_num
  · obtain ⟨e, hpos, -, hpass⟩ := decode_policy_softmax_form logits legal hne
    rw [hpass]
    exact div_pos (hpos _)
      (Finset.sum_pos (fun i _ => hpos i) ⟨0, Finset.mem_univ 0⟩)

/-- Every decoded piece probability is nonnegative. -/
theorem decode_pieceProb_nonneg (logits : Fin 22 → ℝ) (legal : Finset ℕ)
    (pid : ℕ) : 0 ≤ (decode_policy logits legal 1).pieceProb pid := by
  by_cases hne : legal = ∅
  · subst hne
    rw [decode_policy_empty]
  · obtain ⟨e, hpos, hpiece, -⟩ := decode_policy_softmax_form logits legal hne
    simp only [hpiece]
    split
    · exact le_of_lt (div_pos (hpos _)
        (Finset.sum_pos (fun i _ => hpos i) ⟨0, Finset.mem_univ 0⟩))
    · exact le_refl 0

/-- A legal piece id below 21 always gets positive decoded probability. -/
theorem decode_pieceProb_pos (logits : Fin 22 → ℝ) (legal : Finset ℕ)
    (pid : ℕ) (h21 : pid < 21) (hmem : pid ∈ legal) :
    0 < (decode_policy logits legal 1).pieceProb pid := by
  obtain ⟨e, hpos, hpiece, -⟩ :=
    decode_policy_softmax_form logits legal (by rintro rfl; cases hmem)
  simp only [hpiece]
  rw [dif_pos ⟨h21, hmem⟩]
  exact div_pos (hpos _)
    (Finset.sum_pos (fun i _ => hpos i) ⟨0, Finset.mem_univ 0⟩)

/-- Over any duplicate-free list of piece ids, the decoded piece
probabilities plus the pass probability sum to at most 1. -/
theorem decode_sum_le_one (logits : Fin 22 → ℝ) (legal : Finset ℕ)
    (l : List ℕ) (hnd : l.Nodup) :
    (l.map (decode_policy logits legal 1).pieceProb).sum +
      (decode_policy logits legal 1).passProb ≤ 1 := by
  by_cases hne : legal = ∅
  · subst hne
    rw [decode_policy_empty]
    show (l.map fun _ => (0 : ℝ)).sum + 1 ≤ 1
    simp
  · obtain ⟨e, hpos, hpiece, hpass⟩ := decode_policy_softmax_form logits legal hne
    have hzpos : (0 : ℝ) < ∑ i, e i :=
      Finset.sum_pos (fun i _ => hpos i) ⟨0, Finset.mem_univ 0⟩
    have hqnn : ∀ i : Fin 22, 0 ≤ e i / (∑ j, e j) :=
      fun i => le_of_lt (div_pos (hpos i) hzpos)
    have h1 : (l.map (decode_policy logits legal 1).pieceProb).sum =
        ∑ pid ∈ l.toFinset, (decode_policy logits legal 1).pieceProb pid :=
      (List.sum_toFinset _ hnd).symm
    have h2 : ∑ pid ∈ l.toFinset, (decode_policy logits legal 1).pieceProb pid =
        ∑ pid ∈ l.toFinset.filter (fun pid => pid < 21 ∧ pid ∈ legal),
          (decode_policy logits legal 1).pieceProb pid := by
      refine (Finset.sum_filter_of_ne ?_).symm
      intro pid hin hne2
      by_contra hnp
      refine hne2 ?_
      simp only [hpiece]
      rw [dif_neg hnp]
    have hcong : ∀ pid ∈ l.toFinset.filter (fun pid => pid < 21 ∧ pid ∈ legal),
        (decode_policy logits legal 1).pieceProb pid =
          e ⟨pid % 22, by omega⟩ / (∑ j, e j) := by
      intro pid hpid
      obtain ⟨h21, hmem⟩ := (Finset.mem_filter.1 hpid).2
      simp only [hpiece]
      rw [dif_pos ⟨h21, hmem⟩]
      congr 2
      exact Fin.ext (by simp [Nat.mod_eq_of_lt (by omega : pid < 22)])
    have hinj : Set.InjOn (fun pid => (⟨pid % 22, by omega⟩ : Fin 22))
        (l.toFinset.filter (fun pid => pid < 21 ∧ pid ∈ legal)) := by
      intro a ha b hb hab
      obtain ⟨ha21, -⟩ := (Finset.mem_filter.1 ha).2
      obtain ⟨hb21, -⟩ := (Finset.mem_filter.1 hb).2
      have := congrArg Fin.val hab
      simp only [Nat.mod_eq_of_lt (by omega : a < 22),
        Nat.mod_eq_of_lt (by omega : b < 22)] at this
      exact this
    have h3 : ∑ pid ∈ l.toFinset.filter (fun pid => pid < 21 ∧ pid ∈ legal),
        (decode_policy logits legal 1).pieceProb pid =
        ∑ i ∈ (l.toFinset.filter (fun pid => pid < 21 ∧ pid ∈ legal)).image
            (fun pid => (⟨pid % 22, by omega⟩ : Fin 22)), e i / (∑ j, e j) := by
      rw [Finset.sum_image (fun a ha b hb => hinj ha hb)]
      exact Finset.sum_congr rfl hcong
    have h21img : (21 : Fin 22) ∉
        (l.toFinset.filter (fun pid => pid < 21 ∧ pid ∈ legal)).image
          (fun pid => (⟨pid % 22, by omega⟩ : Fin 22)) := by
      rw [Finset.mem_image]
      rintro ⟨pid, hpid, heq⟩
      obtain ⟨h21, -⟩ := (Finset.mem_filter.1 hpid).2
      have := congrArg Fin.val heq
      simp only [Nat.mod_eq_of_lt (by omega : pid < 22)] at this
      omega
    have hins : ∑ i ∈ insert (21 : Fin 22)
        ((l.toFinset.filter (fun pid => pid < 21 ∧ pid ∈ legal)).image
          (fun pid => (⟨pid % 22, by omega⟩ : Fin 22))), e i / (∑ j, e j) =
        e 21 / (∑ j, e j) +
        ∑ i ∈ (l.toFinset.filter (fun pid => pid < 21 ∧ pid ∈ legal)).image
          (fun pid => (⟨pid % 22, by omega⟩ : Fin 22)), e i / (∑ j, e j) :=
      Finset.sum_insert h21img
    have hTle : ∑ i ∈ insert (21 : Fin 22)
        ((l.toFinset.filter (fun pid => pid < 21 ∧ pid ∈ legal)).image
          (fun pid => (⟨pid % 22, by omega⟩ : Fin 22))), e i / (∑ j, e j) ≤
        ∑ i : Fin 22, e i / (∑ j, e j) :=
      Finset.sum_le_sum_of_subset_of_nonneg (Finset.subset_univ _)
        (fun i _ _ => hqnn i)
    have htotal : ∑ i : Fin 22, e i / (∑ j, e j) = 1 := by
      rw [← Finset.sum_div]
      exact div_self (ne_of_gt hzpos)
    rw [h1, h2, h3, hpass]
    rw [htotal] at hTle
    rw [hins] at hTle
    linarith

/-- A fresh child over a well-formed state is `FreshOK`. -/
theorem freshChild_ok (st : BoardState) (k : ActionKey) (h : WFState st) :
    FreshOK (freshChild st k) := ⟨rfl, rfl, rfl, rfl, rfl, h⟩

/-- The placement loop succeeds on legal moves and produces fresh children,
each prior being exactly the split probability. -/
theorem placementChildren_spec (st : BoardState) (pid : ℕ) (split : ℝ)
    (hWF : WFState st) (lp : List (ℕ × Move))
    (hlegal : ∀ x ∈ lp, check_legal_move st x.2 = true) :
    ∃ cs ps, placementChildren st pid split lp = some (cs, ps) ∧
      (ps.map Prod.snd).sum = lp.length * split ∧
      (∀ x ∈ ps, Prod.snd x = split) ∧
      (∀ c ∈ cs, FreshOK c.2) := by
  induction lp with
  | nil => exact ⟨[], [], rfl, by simp, by simp, by simp⟩
  | cons x rest ih =>
    rcases x with ⟨idx, mv⟩
    obtain ⟨st2, happ, hWF2, -⟩ :=
      apply_move_of_legal st mv hWF (hlegal _ (List.mem_cons_self _ _))
    obtain ⟨cs, ps, hrec, hsum, hsplit, hfresh⟩ :=
      ih (fun y hy => hlegal y (List.mem_cons_of_mem _ hy))
    refine ⟨(ActionKey.place pid idx, freshChild st2 (ActionKey.place pid idx)) :: cs,
      (ActionKey.place pid idx, split) :: ps, ?_, ?_, ?_, ?_⟩
    · simp only [placementChildren, happ, hrec]
      rfl
    · simp only [List.map_cons, List.sum_cons, hsum, List.length_cons]
      push_cast
      ring
    · intro y hy
      rcases List.mem_cons.1 hy with rfl | hy
      · rfl
      · exact hsplit y hy
    · intro c hc
      rcases List.mem_cons.1 hc with rfl | hc
      · exact freshChild_ok st2 _ hWF2
      · exact hfresh c hc

/-- The piece loop of `expand_node` succeeds on any list of piece ids, the
resulting priors summing to the decoded probabilities of exactly the ids
with at least one legal placement. -/
theorem pieceLoop_spec (st : BoardState) (pp : PiecePolicy) (moves : List Move)
    (hWF : WFState st) (hlegal : ∀ mv ∈ moves, check_legal_move st mv = true)
    (hppn : ∀ pid, 0 ≤ pp.pieceProb pid) :
    ∀ pidl : List ℕ,
    ∃ cs ps, pieceLoop st pp moves pidl = some (cs, ps) ∧
      (ps.map Prod.snd).sum =
        ((pidl.filter fun pid =>
          !(moves.filter fun m => m.piece_id == pid).isEmpty).map pp.pieceProb).sum ∧
      (∀ x ∈ ps, 0 ≤ Prod.snd x) ∧
      (∀ c ∈ cs, FreshOK c.2) := by
  intro pidl
  induction pidl with
  | nil => exact ⟨[], [], rfl, by simp, by simp, by simp⟩
  | cons pid rest ih =>
    obtain ⟨cs, ps, hrec, hsum, hnn, hfresh⟩ := ih
    by_cases hemp : (moves.filter fun m => m.piece_id == pid).isEmpty = true
    · refine ⟨cs, ps, ?_, ?_, hnn, hfresh⟩
      · simp only [pieceLoop, hemp, if_true]
        exact hrec
      · rw [List.filter_cons_of_neg (by simp [hemp])]
        exact hsum
    · have hlen : (moves.filter fun m => m.piece_id == pid).length ≠ 0 := by
        intro h0
        exact hemp (by rwa [List.isEmpty_iff_length_eq_zero])
      obtain ⟨cs1, ps1, hpc, hsum1, hsplit1, hfresh1⟩ :=
        placementChildren_spec st pid
          (pp.pieceProb pid / (moves.filter fun m => m.piece_id == pid).length)
          hWF (moves.filter fun m => m.piece_id == pid).enum
          (fun x hx => hlegal x.2
            (List.mem_of_mem_filter (List.snd_mem_of_mem_enum hx)))
      refine ⟨cs1 ++ cs, ps1 ++ ps, ?_, ?_, ?_, ?_⟩
      · simp only [pieceLoop, hemp, Bool.false_eq_true, if_false, hpc, hrec]
        rfl
      · rw [List.map_append, List.sum_append, hsum1, hsum,
          List.filter_cons_of_pos (by simp [hemp]), List.map_cons, List.sum_cons,
          List.enum_length]
        congr 1
        field_simp
      · intro x hx
        rcases List.mem_append.1 hx with hx | hx
        · rw [hsplit1 x hx]
          exact div_nonneg (hppn pid) (Nat.cast_nonneg _)
        · exact hnn x hx
      · intro c hc
        rcases List.mem_append.1 hc with hc | hc
        · exact hfresh1 c hc
        · exact hfresh c hc

/-- Characterization of expanding a fresh node over a well-formed
non-terminal state: expansion succeeds, yields at least one child (the pass
child always exists, the decoded pass probability being positive), children
are fresh, priors nonnegative, and the priors sum to the decoded
probabilities of the placeable piece ids plus the pass probability. -/
theorem expand_node_spec (model : Model) (st : BoardState) (vc : ℕ) (tv : ℝ)
    (lak : Option ActionKey) (hWF : WFState st) (hterm : is_terminal st = false) :
    ∃ cs ps, expand_node model (.mk st vc tv [] false lak .nil) =
        some (.mk st vc tv ps true lak (ofListCM cs)) ∧
      cs ≠ [] ∧ (∀ c ∈ cs, FreshOK c.2) ∧ (∀ x ∈ ps, 0 ≤ Prod.snd x) ∧
      (ps.map Prod.snd).sum =
        ((((st.pieces_remaining.getD st.current_player ∅).sort (· ≤ ·)).filter
            (fun pid =>
              !((get_legal_moves st).filter fun m => m.piece_id == pid).isEmpty)).map
          (decode_policy (model.policy st)
            (st.pieces_remaining.getD st.current_player ∅) 1).pieceProb).sum +
        (decode_policy (model.policy st)
          (st.pieces_remaining.getD st.current_player ∅) 1).passProb := by
  obtain ⟨cs0, ps0, hploop, hsum0, hnn0, hfresh0⟩ :=
    pieceLoop_spec st
      (decode_policy (model.policy st)
        (st.pieces_remaining.getD st.current_player ∅) 1)
      (get_legal_moves st) hWF (fun mv hm => get_legal_moves_legal st mv hm)
      (fun pid => decode_pieceProb_nonneg _ _ _)
      ((st.pieces_remaining.getD st.current_player ∅).sort (· ≤ ·))
  have hpass := decode_passProb_pos (model.policy st)
    (st.pieces_remaining.getD st.current_player ∅)
  obtain ⟨h1, h2, h3, h4, h5, h6⟩ := hWF
  have hWFp : WFState (BoardState.mk st.board_grid st.pieces_remaining
      ((st.current_player + 1) % 4) st.moves_made (st.consecutive_passes + 1)) :=
    ⟨h1, h2, h3, h4, by show (st.current_player + 1) % 4 < 4; omega, h6⟩
  refine ⟨cs0 ++ [(ActionKey.passKey 0,
      freshChild (BoardState.mk st.board_grid st.pieces_remaining
        ((st.current_player + 1) % 4) st.moves_made (st.consecutive_passes + 1))
        (ActionKey.passKey 0))],
    ps0 ++ [(ActionKey.passKey 0,
      (decode_policy (model.policy st)
        (st.pieces_remaining.getD st.current_player ∅) 1).passProb)],
    ?_, by simp, ?_, ?_, ?_⟩
  · simp only [expand_node, hterm, Bool.false_eq_true, if_false, hploop]
    rw [if_pos hpass]
    rfl
  · intro c hc
    rcases List.mem_append.1 hc with hc | hc
    · exact hfresh0 c hc
    · rw [List.mem_singleton.1 hc]
      exact freshChild_ok _ _ hWFp
  · intro x hx
    rcases List.mem_append.1 hx with hx | hx
    · exact hnn0 x hx
    · rw [List.mem_singleton.1 hx]
      exact le_of_lt hpass
  · rw [List.map_append, List.sum_append, hsum0]
    simp

/-- Claim C10: expanding a fresh non-terminal node stores child priors
summing to at most 1, and strictly below 1 whenever some remaining piece
with positive decoded probability has no legal placement — that piece's
mass is dropped, not renormalized across the other children. -/
theorem claim_C10_prior_mass (model : Model) (st : BoardState) (vc : ℕ)
    (tv : ℝ) (lak : Option ActionKey)
    (hWF : WFState st) (hterm : is_terminal st = false) :
    ∃ t2, expand_node model (.mk st vc tv [] false lak .nil) = some t2 ∧
      (t2.priors.map Prod.snd).sum ≤ 1 ∧
      ((∃ pid ∈ st.pieces_remaining.getD st.current_player ∅,
          0 < (decode_policy (model.policy st)
            (st.pieces_remaining.getD st.current_player ∅) 1).pieceProb pid ∧
          (get_legal_moves st).filter (fun m => m.piece_id == pid) = []) →
        (t2.priors.map Prod.snd).sum < 1) := by
  obtain ⟨cs, ps, hexp, -, -, -, hsum⟩ := expand_node_spec model st vc tv lak hWF hterm
  have hndf : (((st.pieces_remaining.getD st.current_player ∅).sort (· ≤ ·)).filter
      (fun pid =>
        !((get_legal_moves st).filter fun m => m.piece_id == pid).isEmpty)).Nodup :=
    List.Nodup.filter _ (Finset.sort_nodup _ _)
  refine ⟨_, hexp, ?_, ?_⟩
  · show (ps.map Prod.snd).sum ≤ 1
    rw [hsum]
    exact decode_sum_le_one _ _ _ hndf
  · rintro ⟨pid, hmem, hpos, hempF⟩
    show (ps.map Prod.snd).sum < 1
    rw [hsum]
    have hnotf : pid ∉ ((st.pieces_remaining.getD st.current_player ∅).sort (· ≤ ·)).filter
        (fun pid =>
          !((get_legal_moves st).filter fun m => m.piece_id == pid).isEmpty) := by
      intro hin
      have hkeep := (List.mem_filter.1 hin).2
      rw [hempF] at hkeep
      simp at hkeep
    have hbound := decode_sum_le_one (model.policy st)
      (st.pieces_remaining.getD st.current_player ∅)
      (pid :: ((st.pieces_remaining.getD st.current_player ∅).sort (· ≤ ·)).filter
        (fun pid =>
          !((get_legal_moves st).filter fun m => m.piece_id == pid).isEmpty))
      (List.nodup_cons.2 ⟨hnotf, hndf⟩)
    rw [List.map_cons, List.sum_cons] at hbound
    linarith

/-- Witness for claim C10, expanding a fresh root over the initial board. -/
theorem claim_C10_prior_mass_witness :
    WFState initialBoardState ∧ is_terminal initialBoardState = false ∧
    (∃ t2, expand_node uniformModel (.mk initialBoardState 0 0 [] false none .nil) =
        some t2 ∧
      (t2.priors.map Prod.snd).sum ≤ 1 ∧
      ((∃ pid ∈ initialBoardState.pieces_remaining.getD
            initialBoardState.current_player ∅,
          0 < (decode_policy (uniformModel.policy initialBoardState)
            (initialBoardState.pieces_remaining.getD
              initialBoardState.current_player ∅) 1).pieceProb pid ∧
          (get_legal_moves initialBoardState).filter
            (fun m => m.piece_id == pid) = []) →
        (t2.priors.map Prod.snd).sum < 1)) :=
  ⟨by decide, by decide,
    claim_C10_prior_mass uniformModel initialBoardState 0 0 none
      (by decide) (by decide)⟩

/-- Every tree has at least one node. -/
theorem nodeSize_pos (t : MCTSNode) : 1 ≤ nodeSize t := by
  rcases t with ⟨st, vc, tv, pr, ex, lak, ch⟩
  rw [nodeSize]
  omega

/-- A fresh node satisfies the invariant. -/
theorem freshOK_nodeOK (c : MCTSNode) (h : FreshOK c) : NodeOK c := by
  rcases c with ⟨st, vc, tv, pr, ex, lak, ch⟩
  obtain ⟨hv, ht, hp, he, hch, hwf⟩ := h
  rw [MCTSNode.visit_count] at hv
  rw [MCTSNode.total_value] at ht
  rw [MCTSNode.priors] at hp
  rw [MCTSNode.expanded] at he
  rw [MCTSNode.children] at hch
  rw [MCTSNode.state] at hwf
  subst hv ht hp he hch
  exact ⟨hwf, by simp, by simp, fun _ => ⟨rfl, rfl⟩, trivial⟩

/-- `ofListCM` of invariant-satisfying nodes satisfies the dict invariant. -/
theorem ofListCM_ok (cs : List (ActionKey × MCTSNode))
    (h : ∀ c ∈ cs, NodeOK c.2) : CMOK (ofListCM cs) := by
  induction cs with
  | nil => trivial
  | cons x rest ih =>
    exact ⟨h x (List.mem_cons_self _ _),
      ih fun c hc => h c (List.mem_cons_of_mem _ hc)⟩

/-- `ofListCM` of never-visited nodes has visit sum 0. -/
theorem sumVisits_ofListCM_zero (cs : List (ActionKey × MCTSNode))
    (h : ∀ c ∈ cs, c.2.visit_count = 0) : (ofListCM cs).sumVisits = 0 := by
  induction cs with
  | nil => rfl
  | cons x rest ih =>
    rw [ofListCM, ChildMap.sumVisits, h x (List.mem_cons_self _ _),
      ih fun c hc => h c (List.mem_cons_of_mem _ hc)]

/-- `ofListCM` of a nonempty list is nonempty. -/
theorem isNil_ofListCM (cs : List (ActionKey × MCTSNode)) (h : cs ≠ []) :
    (ofListCM cs).isNil = false := by
  rcases cs with _ | ⟨⟨k, c⟩, rest⟩
  · exact absurd rfl h
  · rfl

/-- A dict lookup with nonnegative values is nonnegative. -/
theorem priorsGet_nonneg (pr : List (ActionKey × ℝ))
    (h : ∀ x ∈ pr, 0 ≤ Prod.snd x) (k : Option ActionKey) :
    0 ≤ priorsGet pr k := by
  rcases k with _ | key
  · exact le_refl 0
  · show 0 ≤ ((pr.find? fun e => e.1 == key).map Prod.snd).getD 0
    rcases hf : pr.find? fun e => e.1 == key with _ | x
    · rw [hf]
      exact le_refl 0
    · rw [hf]
      exact h x (List.mem_of_find?_eq_some hf)

/-- The score of any invariant-satisfying child beats the `-999999.0`
starting value of the selection loop. -/
theorem ucb_gt_start (parent child : MCTSNode) (c_puct : ℝ) (hc : 0 ≤ c_puct)
    (hok : NodeOK child) :
    (((-999999 : ℝ) : WithTop ℝ)) < ucb_score parent child c_puct := by
  unfold ucb_score
  split
  · exact WithTop.coe_lt_top _
  · next hvz =>
    rw [WithTop.coe_lt_coe]
    have hprior : 0 ≤ priorsGet child.priors child.lastKey := by
      rcases child with ⟨st, vc, tv, pr, ex, lak, ch⟩
      obtain ⟨-, -, hpr, -, -⟩ := hok
      exact priorsGet_nonneg _ hpr _
    have hvc1 : (1 : ℝ) ≤ child.visit_count := by
      have h1 := Nat.one_le_iff_ne_zero.2 hvz
      exact_mod_cast h1
    have htv : |child.total_value| ≤ (child.visit_count : ℝ) := by
      rcases child with ⟨st, vc, tv, pr, ex, lak, ch⟩
      obtain ⟨-, h2, -, -, -⟩ := hok
      exact h2
    have hmean : -1 ≤ child.mean_value := by
      rw [MCTSNode.mean_value, if_neg hvz]
      rw [le_div_iff₀ (by linarith : (0 : ℝ) < child.visit_count)]
      rw [neg_one_mul]
      exact (abs_le.1 htv).1
    have hterm2 : 0 ≤ c_puct * priorsGet child.priors child.lastKey *
        Real.sqrt parent.visit_count / (1 + child.visit_count) :=
      div_nonneg (mul_nonneg (mul_nonneg hc hprior) (Real.sqrt_nonneg _))
        (by linarith)
    linarith

/-- Once the selection loop holds a best candidate it returns one, from the
remaining children or the candidate itself. -/
theorem selectLoop_some_of_some (parent : MCTSNode) (c_puct : ℝ) :
    ∀ (ch : ChildMap) (s : WithTop ℝ) (x : ActionKey × MCTSNode),
    ∃ y, selectLoop parent c_puct ch s (some x) = some y ∧
      (y = x ∨ y.1 ∈ ch.keys)
  | .nil, s, x => ⟨x, rfl, Or.inl rfl⟩
  | .cons k c rest, s, x => by
    unfold selectLoop
    split
    · obtain ⟨y, hy, hmem⟩ :=
        selectLoop_some_of_some parent c_puct rest (ucb_score parent c c_puct) (k, c)
      refine ⟨y, hy, Or.inr ?_⟩
      rcases hmem with rfl | hmem
      · rw [ChildMap.keys]
        exact List.mem_cons_self _ _
      · rw [ChildMap.keys]
        exact List.mem_cons_of_mem _ hmem
    · obtain ⟨y, hy, hmem⟩ := selectLoop_some_of_some parent c_puct rest s x
      refine ⟨y, hy, ?_⟩
      rcases hmem with rfl | hmem
      · exact Or.inl rfl
      · refine Or.inr ?_
        rw [ChildMap.keys]
        exact List.mem_cons_of_mem _ hmem

/-- On a nonempty children dict whose members satisfy the invariant, the
selection loop returns a key of the dict. -/
theorem selectLoop_total (parent : MCTSNode) (c_puct : ℝ) (hc : 0 ≤ c_puct)
    (k : ActionKey) (c : MCTSNode) (rest : ChildMap) (hok : NodeOK c) :
    ∃ y, selectLoop parent c_puct (.cons k c rest)
        (((-999999 : ℝ) : WithTop ℝ)) none = some y ∧
      y.1 ∈ (ChildMap.cons k c rest).keys := by
  unfold selectLoop
  rw [if_pos (ucb_gt_start parent c c_puct hc hok)]
  obtain ⟨y, hy, hmem⟩ := selectLoop_some_of_some parent c_puct rest _ (k, c)
  refine ⟨y, hy, ?_⟩
  rcases hmem with rfl | hmem
  · rw [ChildMap.keys]
    exact List.mem_cons_self _ _
  · rw [ChildMap.keys]
    exact List.mem_cons_of_mem _ hmem

/-- Final scores lie in `[-89, 0]` for states drawing pieces from the 21
known ids. -/
theorem final_scores_bound (st : BoardState)
    (hrem : ∀ s ∈ st.pieces_remaining, s ⊆ Finset.range 21) :
    ∀ x ∈ compute_final_scores st, -89 ≤ x ∧ x ≤ 0 := by
  intro x hx
  unfold compute_final_scores at hx
  rw [List.mem_map] at hx
  obtain ⟨c, -, rfl⟩ := hx
  have hsub : st.pieces_remaining.getD c ∅ ⊆ Finset.range 21 := by
    by_cases hlt : c < st.pieces_remaining.length
    · refine hrem _ ?_
      rw [List.getD_eq_getElem _ ∅ hlt]
      exact List.getElem_mem hlt
    · rw [List.getD_eq_default _ ∅ (by omega)]
      exact Finset.empty_subset _
  have hle : (st.pieces_remaining.getD c ∅).sum
      (fun pid => ((ALL_SHAPES.getD pid []).length : ℤ)) ≤
      (Finset.range 21).sum (fun pid => ((ALL_SHAPES.getD pid []).length : ℤ)) :=
    Finset.sum_le_sum_of_subset_of_nonneg hsub (fun i _ _ => by positivity)
  have h89 : (Finset.range 21).sum
      (fun pid => ((ALL_SHAPES.getD pid []).length : ℤ)) = 89 := by decide
  have hnn : 0 ≤ (st.pieces_remaining.getD c ∅).sum
      (fun pid => ((ALL_SHAPES.getD pid []).length : ℤ)) :=
    Finset.sum_nonneg (fun i _ => by positivity)
  omega

/-- The evaluation of any node with well-formed remaining sets is bounded
when the model values are. -/
theorem evaluate_node_bound (model : Model) (t : MCTSNode)
    (hmb : ModelBounded model)
    (hrem : ∀ s ∈ t.state.pieces_remaining, s ⊆ Finset.range 21) :
    |evaluate_node model t| ≤ 1 := by
  unfold evaluate_node
  split
  · have hb := final_scores_bound t.state hrem
    have hv : -89 ≤ (compute_final_scores t.state).getD t.state.current_player 0 ∧
        (compute_final_scores t.state).getD t.state.current_player 0 ≤ 0 := by
      by_cases hlt : t.state.current_player < (compute_final_scores t.state).length
      · refine hb _ ?_
        rw [List.getD_eq_getElem _ 0 hlt]
        exact List.getElem_mem hlt
      · rw [List.getD_eq_default _ 0 (by omega)]
        exact ⟨by omega, le_refl 0⟩
    have habs : |((compute_final_scores t.state).getD
        t.state.current_player 0 : ℝ)| ≤ 89 := by
      rw [abs_le]
      refine ⟨by exact_mod_cast hv.1, ?_⟩
      have hle0 : ((compute_final_scores t.state).getD
          t.state.current_player 0 : ℝ) ≤ 0 := by exact_mod_cast hv.2
      linarith
    rw [abs_div, abs_of_pos (by norm_num : (0 : ℝ) < 100),
      div_le_one (by norm_num : (0 : ℝ) < 100)]
    linarith
  · exact hmb _

/-- Given the claim for all trees of size at most `n` (the induction
hypothesis of `simulate_spec`), descending into a present key succeeds and
adds exactly one visit to the dict's total. -/
theorem simInto_spec (model : Model) (c_puct : ℝ) (n : ℕ)
    (IH : ∀ t : MCTSNode, nodeSize t ≤ n → NodeOK t →
      ∃ t2 v, simulate model c_puct t = some (t2, v) ∧ |v| ≤ 1 ∧ NodeOK t2 ∧
        t2.visit_count = t.visit_count + 1 ∧ t2.state = t.state ∧
        (t.expanded = true → t.children.isNil = false →
          t2.children.sumVisits = t.children.sumVisits + 1 ∧
          t2.expanded = true ∧ t2.children.isNil = false)) :
    ∀ ch : ChildMap, cmSize ch ≤ n → CMOK ch → ∀ k, k ∈ ch.keys →
      ∃ ch2 v, simInto model c_puct k ch = some (ch2, v) ∧ |v| ≤ 1 ∧
        CMOK ch2 ∧ ch2.sumVisits = ch.sumVisits + 1 ∧ ch2.isNil = ch.isNil
  | .nil, _, _, k, hk => absurd hk (by rw [ChildMap.keys]; exact List.not_mem_nil k)
  | .cons k2 c rest, hsz, hok, k, hk => by
    obtain ⟨hokc, hokrest⟩ := hok
    rw [cmSize] at hsz
    by_cases heq : k = k2
    · subst heq
      obtain ⟨c2, v, hsim, hv, hok2, hvc, -, -⟩ :=
        IH c (by omega) hokc
      refine ⟨.cons k c2 rest, v, ?_, hv, ⟨hok2, hokrest⟩, ?_, rfl⟩
      · unfold simInto
        rw [if_pos rfl, hsim]
        rfl
      · rw [ChildMap.sumVisits, ChildMap.sumVisits, hvc]
        omega
    · have hkrest : k ∈ rest.keys := by
        rw [ChildMap.keys] at hk
        rcases List.mem_cons.1 hk with rfl | h
        · exact absurd rfl heq
        · exact h
      obtain ⟨rest2, v, hsim, hv, hok2, hsum, -⟩ :=
        simInto_spec model c_puct n IH rest
          (by have := nodeSize_pos c; omega) hokrest k hkrest
      refine ⟨.cons k2 c rest2, v, ?_, hv, ⟨hokc, hok2⟩, ?_, rfl⟩
      · unfold simInto
        rw [if_neg heq, hsim]
        rfl
      · rw [ChildMap.sumVisits, ChildMap.sumVisits, hsum]
        omega

/-- One simulation on any invariant-satisfying tree succeeds, carries a
bounded value, preserves the invariant, adds exactly one visit to the
entered node, and — when the node was expanded with children — adds exactly
one visit among its children, which stay nonempty. -/
theorem simulate_spec (model : Model) (c_puct : ℝ)
    (hmb : ModelBounded model) (hc : 0 ≤ c_puct) :
    ∀ (n : ℕ) (t : MCTSNode), nodeSize t ≤ n → NodeOK t →
      ∃ t2 v, simulate model c_puct t = some (t2, v) ∧ |v| ≤ 1 ∧ NodeOK t2 ∧
        t2.visit_count = t.visit_count + 1 ∧ t2.state = t.state ∧
        (t.expanded = true → t.children.isNil = false →
          t2.children.sumVisits = t.children.sumVisits + 1 ∧
          t2.expanded = true ∧ t2.children.isNil = false) := by
  intro n
  induction n with
  | zero =>
    intro t hsz
    exact absurd hsz (by have := nodeSize_pos t; omega)
  | succ n ih =>
    intro t hsz hok
    rcases t with ⟨st, vc, tv, pr, ex, lak, ch⟩
    obtain ⟨hwf, htv, hpr, hfreshinv, hchok⟩ := hok
    rw [nodeSize] at hsz
    by_cases hcond : (ex && !ch.isNil) = true
    · obtain ⟨hex, hnil⟩ := Bool.and_eq_true_iff.1 hcond
      rw [Bool.not_eq_true'] at hnil
      subst hex
      rcases ch with _ | ⟨k0, c0, rest0⟩
      · rw [ChildMap.isNil] at hnil
        cases hnil
      obtain ⟨hok0, hokrest0⟩ := hchok
      obtain ⟨y, hysel, hymem⟩ :=
        selectLoop_total (.mk st vc tv pr true lak (.cons k0 c0 rest0))
          c_puct hc k0 c0 rest0 hok0
      rcases y with ⟨ky, cy⟩
      obtain ⟨ch2, v, hsiminto, hv, hok2, hsum2, hnil2⟩ :=
        simInto_spec model c_puct n ih (.cons k0 c0 rest0)
          (by omega) ⟨hok0, hokrest0⟩ ky hymem
      refine ⟨.mk st (vc + 1) (tv + v) pr true lak ch2, v, ?_, hv, ?_, ?_, rfl, ?_⟩
      · simp only [simulate]
        rw [if_pos (by rw [ChildMap.isNil]; rfl), hysel]
        show (match simInto model c_puct ky (ChildMap.cons k0 c0 rest0) with
          | none => none
          | some (ch2, v) =>
            some (MCTSNode.mk st (vc + 1) (tv + v) pr true lak ch2, v)) = _
        rw [hsiminto]
      · refine ⟨hwf, ?_, hpr, fun h => Bool.noConfusion h, hok2⟩
        show |tv + v| ≤ ((vc + 1 : ℕ) : ℝ)
        have habs := abs_add tv v
        push_cast
        linarith
      · rw [MCTSNode.visit_count, MCTSNode.visit_count]
      · intro h1 h2
        refine ⟨?_, rfl, ?_⟩
        · rw [MCTSNode.children, MCTSNode.children, hsum2]
        · rw [MCTSNode.children, hnil2, ChildMap.isNil]
    · have hcondF : (ex && !ch.isNil) = false := by
        rwa [Bool.not_eq_true] at hcond
      by_cases hexp : (!ex && !is_terminal st) = true
      · obtain ⟨hex, hterm⟩ := Bool.and_eq_true_iff.1 hexp
        rw [Bool.not_eq_true'] at hex hterm
        subst hex
        obtain ⟨hpre, hchnil⟩ := hfreshinv rfl
        subst hpre
        subst hchnil
        obtain ⟨cs, ps, hexpand, hcs, hfresh, hpsnn, -⟩ :=
          expand_node_spec model st vc tv lak hwf hterm
        have hval : |evaluate_node model
            (.mk st vc tv ps true lak (ofListCM cs))| ≤ 1 :=
          evaluate_node_bound model _ hmb (by
            rw [MCTSNode.state]
            exact hwf.2.2.2.1)
        refine ⟨.mk st (vc + 1)
          (tv + evaluate_node model (.mk st vc tv ps true lak (ofListCM cs)))
          ps true lak (ofListCM cs),
          evaluate_node model (.mk st vc tv ps true lak (ofListCM cs)),
          ?_, hval, ?_, ?_, rfl, ?_⟩
        · simp only [simulate]
          rw [if_neg (by rw [hcondF]; exact Bool.false_ne_true)]
          rw [if_pos (by rw [hterm]; rfl), hexpand]
          rfl
        · refine ⟨hwf, ?_, hpsnn, fun h => Bool.noConfusion h,
            ofListCM_ok cs (fun c hc2 => freshOK_nodeOK c.2 (hfresh c hc2))⟩
          show |tv + evaluate_node model
            (.mk st vc tv ps true lak (ofListCM cs))| ≤ ((vc + 1 : ℕ) : ℝ)
          have habs := abs_add tv
            (evaluate_node model (.mk st vc tv ps true lak (ofListCM cs)))
          push_cast
          linarith
        · rw [MCTSNode.visit_count, MCTSNode.visit_count]
        · intro h1
          rw [MCTSNode.expanded] at h1
          cases h1
      · have hexpF : (!ex && !is_terminal st) = false := by
          rwa [Bool.not_eq_true] at hexp
        have hval : |evaluate_node model (.mk st vc tv pr ex lak ch)| ≤ 1 :=
          evaluate_node_bound model _ hmb (by
            rw [MCTSNode.state]
            exact hwf.2.2.2.1)
        refine ⟨.mk st (vc + 1)
          (tv + evaluate_node model (.mk st vc tv pr ex lak ch)) pr ex lak ch,
          evaluate_node model (.mk st vc tv pr ex lak ch),
          ?_, hval, ?_, ?_, rfl, ?_⟩
        · simp only [simulate]
          rw [if_neg (by rw [hcondF]; exact Bool.false_ne_true)]
          rw [if_neg (by rw [hexpF]; exact Bool.false_ne_true)]
          rfl
        · refine ⟨hwf, ?_, hpr, hfreshinv, hchok⟩
          show |tv + evaluate_node model
            (.mk st vc tv pr ex lak ch)| ≤ ((vc + 1 : ℕ) : ℝ)
          have habs := abs_add tv (evaluate_node model (.mk st vc tv pr ex lak ch))
          push_cast
          linarith
        · rw [MCTSNode.visit_count, MCTSNode.visit_count]
        · intro h1 h2
          rw [MCTSNode.expanded] at h1
          rw [MCTSNode.children] at h2
          rw [h1, h2] at hcondF
          cases hcondF

/-- The first simulation on a fresh non-terminal root expands it: one root
visit, children present but all unvisited. -/
theorem simulate_fresh (model : Model) (c_puct : ℝ) (hmb : ModelBounded model)
    (st : BoardState) (hwf : WFState st) (hterm : is_terminal st = false) :
    ∃ t2 v, simulate model c_puct (freshRoot st) = some (t2, v) ∧ NodeOK t2 ∧
      t2.visit_count = 1 ∧ t2.expanded = true ∧ t2.children.isNil = false ∧
      t2.children.sumVisits = 0 := by
  obtain ⟨cs, ps, hexpand, hcs, hfresh, hpsnn, -⟩ :=
    expand_node_spec model st 0 0 none hwf hterm
  have hval : |evaluate_node model (.mk st 0 0 ps true none (ofListCM cs))| ≤ 1 :=
    evaluate_node_bound model _ hmb (by
      rw [MCTSNode.state]
      exact hwf.2.2.2.1)
  refine ⟨.mk st 1
    (0 + evaluate_node model (.mk st 0 0 ps true none (ofListCM cs)))
    ps true none (ofListCM cs),
    evaluate_node model (.mk st 0 0 ps true none (ofListCM cs)),
    ?_, ?_, rfl, rfl, ?_, ?_⟩
  · show simulate model c_puct (.mk st 0 0 [] false none .nil) = _
    simp only [simulate]
    rw [if_neg (by rw [ChildMap.isNil]; simp)]
    rw [if_pos (by rw [hterm]; rfl), hexpand]
    rfl
  · refine ⟨hwf, ?_, hpsnn, fun h => Bool.noConfusion h,
      ofListCM_ok cs (fun c hc2 => freshOK_nodeOK c.2 (hfresh c hc2))⟩
    show |0 + evaluate_node model
      (.mk st 0 0 ps true none (ofListCM cs))| ≤ ((1 : ℕ) : ℝ)
    rw [zero_add]
    push_cast
    exact hval
  · rw [MCTSNode.children]
    exact isNil_ofListCM cs hcs
  · rw [MCTSNode.children]
    exact sumVisits_ofListCM_zero cs (fun c hc2 => (hfresh c hc2).1)

/-- Each further simulation preserves the root invariant, bumping the
count. -/
theorem mcts_run_inv (model : Model) (c_puct : ℝ) (hmb : ModelBounded model)
    (hc : 0 ≤ c_puct) :
    ∀ (m : ℕ) (t : MCTSNode) (k : ℕ), 1 ≤ k → RootInv t k →
      ∃ t2, mcts_search model c_puct t m = some t2 ∧ RootInv t2 (k + m) := by
  intro m
  induction m with
  | zero => exact fun t k hk hinv => ⟨t, rfl, by simpa using hinv⟩
  | succ m ihm =>
    intro t k hk hinv
    obtain ⟨hok, hvc, hsum, hex, hnil⟩ := hinv
    obtain ⟨t2, v, hsim, -, hok2, hvc2, -, hclause⟩ :=
      simulate_spec model c_puct hmb hc (nodeSize t) t (le_refl _) hok
    obtain ⟨hsum2, hex2, hnil2⟩ := hclause hex hnil
    obtain ⟨t3, hrun, hinv3⟩ := ihm t2 (k + 1) (by omega)
      ⟨hok2, by omega, by rw [hsum2, hsum]; omega, hex2, hnil2⟩
    refine ⟨t3, ?_, by rw [show k + (m + 1) = k + 1 + m by omega]; exact hinv3⟩
    simp only [mcts_search]
    rw [hsim]
    exact hrun

/-- Claim C2 (amended): running the search for `N ≥ 1` simulations from a
fresh non-terminal root (with any evaluator whose values are bounded by 1
and any nonnegative `c_puct`) gives a root with `N` visits whose children's
visit counts sum to exactly `N - 1`: the first simulation expands the root
and increments only the root itself, and each later simulation adds exactly
one visit to exactly one root child. -/
theorem claim_C2_visit_sum (model : Model) (c_puct : ℝ) (st : BoardState)
    (N : ℕ) (hmb : ModelBounded model) (hc : 0 ≤ c_puct)
    (hwf : WFState st) (hterm : is_terminal st = false) (hN : 1 ≤ N) :
    ∃ t2, mcts_search model c_puct (freshRoot st) N = some t2 ∧
      t2.visit_count = N ∧ t2.children.sumVisits = N - 1 := by
  rcases N with _ | m
  · omega
  obtain ⟨t1, v, hsim, hok1, hvc1, hex1, hnil1, hsum1⟩ :=
    simulate_fresh model c_puct hmb st hwf hterm
  obtain ⟨t2, hrun, hinv2⟩ := mcts_run_inv model c_puct hmb hc m t1 1
    (le_refl 1) ⟨hok1, hvc1, by rw [hsum1], hex1, hnil1⟩
  refine ⟨t2, ?_, ?_, ?_⟩
  · simp only [mcts_search]
    rw [hsim]
    exact hrun
  · rw [hinv2.2.1]
    omega
  · rw [hinv2.2.2.1]
    omega

/-- Witness for the amended claim C2, at one simulation from a fresh root
over `noPieceState` with the uniform stub evaluator. -/
theorem claim_C2_visit_sum_witness :
    ModelBounded uniformModel ∧ (0 : ℝ) ≤ 1 ∧ WFState noPieceState ∧
    is_terminal noPieceState = false ∧ 1 ≤ 1 ∧
    (∃ t2, mcts_search uniformModel 1 (freshRoot noPieceState) 1 = some t2 ∧
      t2.visit_count = 1 ∧ t2.children.sumVisits = 1 - 1) :=
  ⟨fun st => by rw [show uniformModel.value st = 0 from rfl]; norm_num,
   by norm_num, by decide, by decide, le_refl 1,
   claim_C2_visit_sum uniformModel 1 noPieceState 1
     (fun st => by rw [show uniformModel.value st = 0 from rfl]; norm_num)
     (by norm_num) (by decide) (by decide) (le_refl 1)⟩
